import Mathlib

/-!
Verification development for the writing_assistant repository.

The Python sources are shallowly embedded:
* `src/text_ingestion.py` — tag parsing (`parseTags`), oracle-output handling
  (`extractEntitiesAndRelationships`), the inline-tag/oracle merge
  (`mergeEntities`), the entity upserts (`createEntitiesInNeo4j`), relationship
  creation (`createRelationshipsInNeo4j`), plus `ingest_text_file` and
  `reingest_file`.
* `src/neo4j_connector.py` — the graph store is modelled as an explicit
  `Graph` value; node property maps are represented canonically as key-sorted
  association lists (Neo4j property maps are unordered, so the sorted list is
  the canonical representative).
* `src/organize_content.py` — content-type detection, title extraction and the
  collision-resolving move.

String processing models Python string/regex semantics over the ASCII
range (the inputs exercised by the specification are ASCII).
-/

set_option maxHeartbeats 1000000
set_option linter.unusedVariables false

namespace WritingAssistant

/-- Property values stored in records and graph nodes: the JSON-ish values the
Python code passes to query parameters (`None` becomes Cypher `null`). -/
inductive Val where
  | str : String → Val
  | num : Int → Val
  | boolean : Bool → Val
  | null : Val
  | strList : List String → Val
deriving DecidableEq, Repr

abbrev Props := List (String × Val)

/-- First-match key lookup in a property list (Cypher `n.key`). -/
def lookupKey (ps : Props) (k : String) : Option Val :=
  match ps with
  | [] => none
  | (k1, v1) :: t => if k1 = k then some v1 else lookupKey t k

/-- Lexicographic strict order on character lists (a computable key order
for the canonical property maps). -/
def lexLt : List Char → List Char → Bool
  | [], [] => false
  | [], _ :: _ => true
  | _ :: _, [] => false
  | a :: as, b :: bs => if a < b then true else if b < a then false else lexLt as bs

/-- The key order on strings. -/
def strLtB (a b : String) : Bool := lexLt a.data b.data

theorem lexLt_irrefl (l : List Char) : lexLt l l = false := by
  induction l with
  | nil => rfl
  | cons a as ih => simp [lexLt, ih]

theorem lexLt_trans (l1 l2 l3 : List Char) (h1 : lexLt l1 l2 = true)
    (h2 : lexLt l2 l3 = true) : lexLt l1 l3 = true := by
  induction l1 generalizing l2 l3 with
  | nil =>
    cases l3 with
    | nil =>
      cases l2 with
      | nil => exact h1
      | cons b bs => simp [lexLt] at h2
    | cons c cs => rfl
  | cons a as ih =>
    cases l2 with
    | nil => simp [lexLt] at h1
    | cons b bs =>
      cases l3 with
      | nil => simp [lexLt] at h2
      | cons c cs =>
        simp only [lexLt] at h1 h2 ⊢
        by_cases hab : a < b
        · by_cases hbc : b < c
          · simp [lt_trans hab hbc]
          · by_cases hcb : c < b
            · rw [if_neg hbc, if_pos hcb] at h2
              cases h2
            · have hbc2 : b = c := le_antisymm (not_lt.mp hcb) (not_lt.mp hbc)
              subst hbc2
              simp [hab]
        · by_cases hba : b < a
          · rw [if_neg hab, if_pos hba] at h1
            cases h1
          · have hab2 : a = b := le_antisymm (not_lt.mp hba) (not_lt.mp hab)
            subst hab2
            rw [if_neg hab, if_neg hba] at h1
            by_cases hbc : a < c
            · simp [hbc]
            · by_cases hcb : c < a
              · rw [if_neg hbc, if_pos hcb] at h2
                cases h2
              · have hbc2 : a = c := le_antisymm (not_lt.mp hcb) (not_lt.mp hbc)
                subst hbc2
                rw [if_neg hbc, if_neg hcb] at h2
                rw [if_neg hbc, if_neg hcb]
                exact ih bs cs h1 h2

theorem lexLt_connex (l1 l2 : List Char) (h1 : lexLt l1 l2 = false)
    (h2 : lexLt l2 l1 = false) : l1 = l2 := by
  induction l1 generalizing l2 with
  | nil =>
    cases l2 with
    | nil => rfl
    | cons b bs => simp [lexLt] at h1
  | cons a as ih =>
    cases l2 with
    | nil => simp [lexLt] at h2
    | cons b bs =>
      simp only [lexLt] at h1 h2
      by_cases hab : a < b
      · rw [if_pos hab] at h1
        cases h1
      · by_cases hba : b < a
        · rw [if_pos hba] at h2
          cases h2
        · have heq : a = b := le_antisymm (not_lt.mp hba) (not_lt.mp hab)
          subst heq
          rw [if_neg hab, if_neg hab] at h1 h2
          rw [ih bs h1 h2]

theorem strLtB_irrefl (a : String) : strLtB a a = false := lexLt_irrefl a.data

theorem strLtB_trans (a b c : String) (h1 : strLtB a b = true) (h2 : strLtB b c = true) :
    strLtB a c = true := lexLt_trans a.data b.data c.data h1 h2

theorem strLtB_connex (a b : String) (h1 : strLtB a b = false) (h2 : strLtB b a = false) :
    a = b := by
  cases a with
  | mk d1 =>
    cases b with
    | mk d2 =>
      have := lexLt_connex d1 d2 h1 h2
      rw [this]

theorem strLtB_total (a b : String) (h1 : ¬ strLtB a b = true) (h2 : ¬ a = b) :
    strLtB b a = true := by
  by_cases h3 : strLtB b a = true
  · exact h3
  · exact absurd (strLtB_connex a b (Bool.not_eq_true _ ▸ Bool.of_not_eq_true h1)
      (Bool.of_not_eq_true h3)) h2

/-- Key-ordered insert-or-overwrite; the canonical-map form of a Cypher
`SET n.k = v` with a non-null `v`. -/
def insertKey (ps : Props) (k : String) (v : Val) : Props :=
  match ps with
  | [] => [(k, v)]
  | (k1, v1) :: t =>
    if strLtB k k1 then (k, v) :: (k1, v1) :: t
    else if k = k1 then (k, v) :: t
    else (k1, v1) :: insertKey t k v

/-- Removal of a key; the effect of a Cypher `SET n.k = null`. -/
def eraseKey (ps : Props) (k : String) : Props :=
  ps.filter (fun p => ¬ p.1 = k)

/-- One Cypher `SET` assignment: null removes the property, anything else
stores it. -/
def writeProp (ps : Props) (kv : String × Val) : Props :=
  match kv.2 with
  | Val.null => eraseKey ps kv.1
  | v => insertKey ps kv.1 v

/-- A whole `SET` clause: the assignments applied left to right. -/
def applySet (ps : Props) (sets : Props) : Props :=
  sets.foldl writeProp ps

/-- The last value a `SET` clause writes to key `k` (`none` if the clause never
touches `k`). -/
def netWrite (sets : Props) (k : String) : Option Val :=
  match sets with
  | [] => none
  | (k1, v1) :: t =>
    match netWrite t k with
    | some v => some v
    | none => if k1 = k then some v1 else none

/-- Effect of a net write on a lookup result. -/
def applyNet (w : Option Val) (old : Option Val) : Option Val :=
  match w with
  | none => old
  | some Val.null => none
  | some v => some v

/-- Keys strictly sorted: the well-formedness invariant of a canonical
property map. -/
def PropsWF (ps : Props) : Prop :=
  List.Pairwise (fun a b : String × Val => strLtB a.1 b.1 = true) ps

instance (ps : Props) : Decidable (PropsWF ps) := by
  unfold PropsWF; infer_instance

theorem insertKey_cons_lt (k1 : String) (v1 : Val) (t : Props) (k : String) (v : Val)
    (h : strLtB k k1 = true) : insertKey ((k1, v1) :: t) k v = (k, v) :: (k1, v1) :: t := by
  simp [insertKey, h]

theorem insertKey_cons_eq (k1 : String) (v1 : Val) (t : Props) (v : Val) :
    insertKey ((k1, v1) :: t) k1 v = (k1, v) :: t := by
  simp [insertKey, strLtB_irrefl]

theorem insertKey_cons_gt (k1 : String) (v1 : Val) (t : Props) (k : String) (v : Val)
    (h1 : ¬ strLtB k k1 = true) (h2 : ¬ k = k1) :
    insertKey ((k1, v1) :: t) k v = (k1, v1) :: insertKey t k v := by
  simp [insertKey, h1, h2]

theorem lookupKey_cons (k1 : String) (v1 : Val) (t : Props) (k2 : String) :
    lookupKey ((k1, v1) :: t) k2 = if k1 = k2 then some v1 else lookupKey t k2 := rfl

theorem lookupKey_insertKey (ps : Props) (k : String) (v : Val) (k2 : String) :
    lookupKey (insertKey ps k v) k2 = if k = k2 then some v else lookupKey ps k2 := by
  induction ps with
  | nil =>
    by_cases h : k = k2 <;> simp [insertKey, lookupKey, h]
  | cons hd t ih =>
    obtain ⟨k1, v1⟩ := hd
    by_cases h1 : strLtB k k1 = true
    · rw [insertKey_cons_lt k1 v1 t k v h1]
      by_cases h : k = k2
      · subst h
        simp [lookupKey_cons]
      · simp [lookupKey_cons, h]
    · by_cases he : k = k1
      · subst he
        rw [insertKey_cons_eq]
        by_cases h : k = k2
        · subst h; simp [lookupKey_cons]
        · simp [lookupKey_cons, h]
      · rw [insertKey_cons_gt k1 v1 t k v h1 he]
        by_cases h2 : k1 = k2
        · subst h2
          have hne : ¬ k = k1 := he
          simp [lookupKey_cons, hne]
        · simp [lookupKey_cons, h2, ih]

theorem lookupKey_eraseKey (ps : Props) (k : String) (k2 : String) :
    lookupKey (eraseKey ps k) k2 = if k = k2 then none else lookupKey ps k2 := by
  induction ps with
  | nil => by_cases h : k = k2 <;> simp [eraseKey, lookupKey, h]
  | cons hd t ih =>
    obtain ⟨k1, v1⟩ := hd
    by_cases hk : k1 = k
    · subst hk
      by_cases h : k1 = k2
      · subst h
        simp [eraseKey, lookupKey] at ih ⊢
        exact ih
      · have : ¬ k1 = k2 := h
        simp [eraseKey, lookupKey, this] at ih ⊢
        exact ih
    · by_cases h : k = k2
      · subst h
        have : ¬ k1 = k := hk
        simp [eraseKey, lookupKey, this, hk] at ih ⊢
        exact ih
      · by_cases h12 : k1 = k2
        · subst h12
          simp [eraseKey, lookupKey, hk, h]
        · simp [eraseKey, lookupKey, hk, h, h12] at ih ⊢
          exact ih

theorem lookupKey_writeProp (ps : Props) (kv : String × Val) (k2 : String) :
    lookupKey (writeProp ps kv) k2 =
      if kv.1 = k2 then applyNet (some kv.2) (lookupKey ps k2)
      else lookupKey ps k2 := by
  obtain ⟨k, v⟩ := kv
  cases v with
  | null => simp [writeProp, applyNet, lookupKey_eraseKey]
  | str s => simp [writeProp, applyNet, lookupKey_insertKey]
  | num n => simp [writeProp, applyNet, lookupKey_insertKey]
  | boolean b => simp [writeProp, applyNet, lookupKey_insertKey]
  | strList l => simp [writeProp, applyNet, lookupKey_insertKey]

theorem netWrite_cons (k1 : String) (v1 : Val) (t : Props) (k : String) :
    netWrite ((k1, v1) :: t) k =
      match netWrite t k with
      | some v => some v
      | none => if k1 = k then some v1 else none := rfl

theorem applyNet_some_irrel (v : Val) (o1 o2 : Option Val) :
    applyNet (some v) o1 = applyNet (some v) o2 := by
  cases v <;> rfl

theorem lookupKey_applySet (sets : Props) (ps : Props) (k : String) :
    lookupKey (applySet ps sets) k = applyNet (netWrite sets k) (lookupKey ps k) := by
  induction sets generalizing ps with
  | nil => simp [applySet, netWrite, applyNet]
  | cons hd t ih =>
    obtain ⟨k1, v1⟩ := hd
    show lookupKey (applySet (writeProp ps (k1, v1)) t) k = _
    rw [ih, netWrite_cons]
    cases hw : netWrite t k with
    | some v =>
      simp only []
      exact applyNet_some_irrel v _ _
    | none =>
      simp only [applyNet, lookupKey_writeProp]
      by_cases h : k1 = k
      · simp [h]
      · simp [h, applyNet]

theorem applyNet_applyNet (w : Option Val) (old : Option Val) :
    applyNet w (applyNet w old) = applyNet w old := by
  cases w with
  | none => rfl
  | some v => cases v <;> rfl

theorem mem_insertKey (ps : Props) (k : String) (v : Val) (b : String × Val)
    (hb : b ∈ insertKey ps k v) : b ∈ ps ∨ b = (k, v) := by
  induction ps with
  | nil =>
    simp [insertKey] at hb
    right; exact hb
  | cons hd t ih =>
    obtain ⟨ka, va⟩ := hd
    by_cases hl2 : strLtB k ka = true
    · rw [insertKey_cons_lt ka va t k v hl2] at hb
      rcases List.mem_cons.mp hb with hb1 | hb1
      · right; exact hb1
      · left; exact hb1
    · by_cases he2 : k = ka
      · subst he2
        rw [insertKey_cons_eq] at hb
        rcases List.mem_cons.mp hb with hb1 | hb1
        · right; exact hb1
        · left; exact List.mem_cons_of_mem _ hb1
      · rw [insertKey_cons_gt ka va t k v hl2 he2] at hb
        rcases List.mem_cons.mp hb with hb1 | hb1
        · left; rw [hb1]; exact List.mem_cons_self _ _
        · rcases ih hb1 with h3 | h3
          · left; exact List.mem_cons_of_mem _ h3
          · right; exact h3

theorem propsWF_insertKey (ps : Props) (k : String) (v : Val) (h : PropsWF ps) :
    PropsWF (insertKey ps k v) := by
  induction ps with
  | nil =>
    simp [insertKey, PropsWF]
  | cons hd t ih =>
    obtain ⟨k1, v1⟩ := hd
    rw [PropsWF, List.pairwise_cons] at h
    obtain ⟨h1, h2⟩ := h
    by_cases hlt : strLtB k k1 = true
    · rw [insertKey_cons_lt k1 v1 t k v hlt]
      rw [PropsWF, List.pairwise_cons]
      constructor
      · intro b hb
        rcases List.mem_cons.mp hb with hb1 | hb1
        · rw [hb1]; exact hlt
        · exact strLtB_trans _ _ _ hlt (h1 b hb1)
      · rw [PropsWF] at *
        exact List.Pairwise.cons h1 h2
    · by_cases he : k = k1
      · subst he
        rw [insertKey_cons_eq]
        rw [PropsWF, List.pairwise_cons]
        exact ⟨h1, h2⟩
      · rw [insertKey_cons_gt k1 v1 t k v hlt he]
        rw [PropsWF, List.pairwise_cons]
        constructor
        · intro b hb
          have hgt : strLtB k1 k = true := strLtB_total k k1 hlt he
          rcases mem_insertKey t k v b hb with hm | hm
          · exact h1 b hm
          · rw [hm]; exact hgt
        · exact ih h2

theorem propsWF_eraseKey (ps : Props) (k : String) (h : PropsWF ps) :
    PropsWF (eraseKey ps k) := by
  rw [PropsWF] at *
  exact List.Pairwise.filter _ h

theorem propsWF_writeProp (ps : Props) (kv : String × Val) (h : PropsWF ps) :
    PropsWF (writeProp ps kv) := by
  obtain ⟨k, v⟩ := kv
  cases v with
  | null => exact propsWF_eraseKey ps k h
  | str s => exact propsWF_insertKey ps k _ h
  | num n => exact propsWF_insertKey ps k _ h
  | boolean b => exact propsWF_insertKey ps k _ h
  | strList l => exact propsWF_insertKey ps k _ h

theorem propsWF_applySet (sets : Props) (ps : Props) (h : PropsWF ps) :
    PropsWF (applySet ps sets) := by
  induction sets generalizing ps with
  | nil => exact h
  | cons hd t ih =>
    show PropsWF (applySet (writeProp ps hd) t)
    exact ih _ (propsWF_writeProp ps hd h)

theorem lookupKey_eq_none_of_forall (ps : Props) (k : String)
    (h : ∀ p ∈ ps, ¬ p.1 = k) : lookupKey ps k = none := by
  induction ps with
  | nil => rfl
  | cons hd t ih =>
    obtain ⟨k1, v1⟩ := hd
    have h1 : ¬ k1 = k := h (k1, v1) (by simp)
    rw [lookupKey_cons, if_neg h1]
    exact ih (fun p hp => h p (by simp [hp]))

/-- Two canonical (strictly key-sorted) property maps with the same lookups
are equal. -/
theorem propsWF_ext (ps qs : Props) (hp : PropsWF ps) (hq : PropsWF qs)
    (h : ∀ k, lookupKey ps k = lookupKey qs k) : ps = qs := by
  induction ps generalizing qs with
  | nil =>
    cases qs with
    | nil => rfl
    | cons hd t =>
      obtain ⟨k1, v1⟩ := hd
      have := h k1
      rw [lookupKey_cons, if_pos rfl] at this
      simp [lookupKey] at this
  | cons hd t ih =>
    obtain ⟨k1, v1⟩ := hd
    cases qs with
    | nil =>
      have := h k1
      rw [lookupKey_cons, if_pos rfl] at this
      simp [lookupKey] at this
    | cons hd2 t2 =>
      obtain ⟨k2, v2⟩ := hd2
      rw [PropsWF, List.pairwise_cons] at hp hq
      obtain ⟨hp1, hp2⟩ := hp
      obtain ⟨hq1, hq2⟩ := hq
      -- the head keys must agree
      have hk12 : k1 = k2 := by
        by_contra hne
        by_cases hlt : strLtB k1 k2 = true
        · -- k1 not in qs at all, contradiction with lookup at k1
          have h1 := h k1
          rw [lookupKey_cons, if_pos rfl] at h1
          have hneq : ¬ k2 = k1 := fun hh => hne hh.symm
          rw [lookupKey_cons, if_neg hneq] at h1
          have : lookupKey t2 k1 = none := by
            apply lookupKey_eq_none_of_forall
            intro p hp
            intro hcontr
            have h3 := hq1 p hp
            rw [hcontr] at h3
            have h4 := strLtB_trans _ _ _ hlt h3
            rw [strLtB_irrefl] at h4
            cases h4
          rw [this] at h1
          simp at h1
        · have hgt : strLtB k2 k1 = true :=
            strLtB_total k1 k2 hlt hne
          have h2 := h k2
          have hneq : ¬ k1 = k2 := hne
          rw [lookupKey_cons, if_neg hneq, lookupKey_cons, if_pos rfl] at h2
          have : lookupKey t k2 = none := by
            apply lookupKey_eq_none_of_forall
            intro p hp
            intro hcontr
            have h3 := hp1 p hp
            rw [hcontr] at h3
            have h4 := strLtB_trans _ _ _ hgt h3
            rw [strLtB_irrefl] at h4
            cases h4
          rw [this] at h2
          simp at h2
      subst hk12
      have hv12 : v1 = v2 := by
        have h1 := h k1
        rw [lookupKey_cons, if_pos rfl, lookupKey_cons, if_pos rfl] at h1
        exact Option.some.inj h1
      subst hv12
      congr 1
      apply ih t2 hp2 hq2
      intro k
      by_cases hk : k = k1
      · subst hk
        have ht : lookupKey t k = none := by
          apply lookupKey_eq_none_of_forall
          intro p hp hcontr
          have h3 := hp1 p hp
          rw [hcontr, strLtB_irrefl] at h3
          cases h3
        have ht2 : lookupKey t2 k = none := by
          apply lookupKey_eq_none_of_forall
          intro p hp hcontr
          have h3 := hq1 p hp
          rw [hcontr, strLtB_irrefl] at h3
          cases h3
        rw [ht, ht2]
      · have h1 := h k
        have hne : ¬ k1 = k := fun hh => hk hh.symm
        rw [lookupKey_cons, if_neg hne, lookupKey_cons, if_neg hne] at h1
        exact h1

/-- Apply a list of `SET` clauses in order. -/
def applySetChain (ps : Props) (chain : List Props) : Props :=
  chain.foldl applySet ps

/-- Net effect of a list of `SET` clauses on key `k`. -/
def netChain (chain : List Props) (k : String) : Option Val :=
  match chain with
  | [] => none
  | s :: rest =>
    match netChain rest k with
    | some v => some v
    | none => netWrite s k

theorem lookupKey_applySetChain (chain : List Props) (ps : Props) (k : String) :
    lookupKey (applySetChain ps chain) k = applyNet (netChain chain k) (lookupKey ps k) := by
  induction chain generalizing ps with
  | nil => rfl
  | cons s rest ih =>
    show lookupKey (applySetChain (applySet ps s) rest) k = _
    rw [ih, lookupKey_applySet]
    show _ = applyNet (match netChain rest k with
      | some v => some v
      | none => netWrite s k) (lookupKey ps k)
    cases hr : netChain rest k with
    | some v =>
      simp only []
      exact applyNet_some_irrel v _ _
    | none =>
      simp only [applyNet]

theorem propsWF_applySetChain (chain : List Props) (ps : Props) (h : PropsWF ps) :
    PropsWF (applySetChain ps chain) := by
  induction chain generalizing ps with
  | nil => exact h
  | cons s rest ih => exact ih _ (propsWF_applySet s ps h)

/-- Replaying an identical list of `SET` clauses is a no-op: the idempotence
core of the Neo4j upsert model. -/
theorem applySetChain_idem (chain : List Props) (ps : Props) (h : PropsWF ps) :
    applySetChain (applySetChain ps chain) chain = applySetChain ps chain := by
  apply propsWF_ext
  · exact propsWF_applySetChain chain _ (propsWF_applySetChain chain ps h)
  · exact propsWF_applySetChain chain ps h
  · intro k
    rw [lookupKey_applySetChain, lookupKey_applySetChain]
    exact applyNet_applyNet _ _

/-! ## Graph model (`neo4j_connector.WritingGraphDB` seen through the queries
that `text_ingestion.py` issues) -/

/-- A labelled property-graph node. -/
structure Node where
  id : Nat
  label : String
  props : Props
deriving DecidableEq, Repr

/-- A directed typed edge. -/
structure Edge where
  src : Nat
  dst : Nat
  typ : String
  props : Props
deriving DecidableEq, Repr

/-- The graph-store state. -/
structure Graph where
  nodes : List Node
  edges : List Edge
deriving DecidableEq, Repr

/-- One `MERGE (x:Label {keyProp: $keyVal}) SET ...` statement of
`create_entities_in_neo4j`, compiled to data. -/
structure Ups where
  label : String
  keyProp : String
  keyVal : Val
  sets : Props
deriving DecidableEq, Repr

/-- Does the `MERGE` pattern of `u` match node `n`? -/
def nodeMatches (u : Ups) (n : Node) : Bool :=
  decide (n.label = u.label) && decide (lookupKey n.props u.keyProp = some u.keyVal)

theorem nodeMatches_iff (u : Ups) (n : Node) :
    nodeMatches u n = true ↔
      n.label = u.label ∧ lookupKey n.props u.keyProp = some u.keyVal := by
  simp [nodeMatches]

/-- The `SET` clause applied to one (matched) node. -/
def updNode (u : Ups) (n : Node) : Node :=
  if nodeMatches u n then { n with props := applySet n.props u.sets } else n

/-- Fresh node identifier (internal id allocation of the store). -/
def freshId (g : Graph) : Nat :=
  (g.nodes.map Node.id).foldl (fun a b => Nat.max a b) 0 + 1

/-- `MERGE` node semantics: update every matched node, or create one node
carrying the merge-pattern property and then apply the `SET` clause. -/
def mergeNode (g : Graph) (u : Ups) : Graph :=
  if g.nodes.any (nodeMatches u) then
    { g with nodes := g.nodes.map (updNode u) }
  else
    { g with nodes :=
        g.nodes ++ [⟨freshId g, u.label, applySet [(u.keyProp, u.keyVal)] u.sets⟩] }

/-- Run a list of upsert statements in order. -/
def runUps (g : Graph) (us : List Ups) : Graph :=
  us.foldl mergeNode g

/-- The cumulative effect of the statement list on one node. -/
def perNode (us : List Ups) (n : Node) : Node :=
  us.foldl (fun m u => updNode u m) n

/-- The `SET` clauses of the statements whose pattern matches `n`, in order. -/
def matchSets (us : List Ups) (n : Node) : List Props :=
  (us.filter (fun u => nodeMatches u n)).map Ups.sets

/-- The natural key of every statement generated by the entity-creation step
is `name` or `title`. -/
def KeyProtected (u : Ups) : Prop := u.keyProp = "name" ∨ u.keyProp = "title"

/-- No `SET` clause generated by the entity-creation step writes a natural-key
property. -/
def WritesNoKeys (u : Ups) : Prop :=
  netWrite u.sets "name" = none ∧ netWrite u.sets "title" = none

/-- All node property maps of the store are canonical. -/
def GraphWF (g : Graph) : Prop := ∀ n ∈ g.nodes, PropsWF n.props

theorem updNode_label (u : Ups) (n : Node) : (updNode u n).label = n.label := by
  unfold updNode
  by_cases h : nodeMatches u n <;> simp [h]

theorem updNode_id (u : Ups) (n : Node) : (updNode u n).id = n.id := by
  unfold updNode
  by_cases h : nodeMatches u n <;> simp [h]

theorem lookupKey_updNode (u : Ups) (n : Node) (k : String)
    (hw : netWrite u.sets k = none) :
    lookupKey (updNode u n).props k = lookupKey n.props k := by
  unfold updNode
  by_cases h : nodeMatches u n
  · simp [h, lookupKey_applySet, hw, applyNet]
  · simp [h]

theorem nodeMatches_updNode (u u0 : Ups) (n : Node)
    (hw : netWrite u.sets u0.keyProp = none) :
    nodeMatches u0 (updNode u n) = nodeMatches u0 n := by
  unfold nodeMatches
  rw [updNode_label, lookupKey_updNode u n u0.keyProp hw]

theorem perNode_nil (n : Node) : perNode [] n = n := rfl

theorem perNode_cons (u : Ups) (rest : List Ups) (n : Node) :
    perNode (u :: rest) n = perNode rest (updNode u n) := rfl

theorem perNode_label (us : List Ups) (n : Node) : (perNode us n).label = n.label := by
  induction us generalizing n with
  | nil => rfl
  | cons u rest ih => rw [perNode_cons, ih, updNode_label]

theorem perNode_id (us : List Ups) (n : Node) : (perNode us n).id = n.id := by
  induction us generalizing n with
  | nil => rfl
  | cons u rest ih => rw [perNode_cons, ih, updNode_id]

theorem lookupKey_perNode (us : List Ups) (n : Node) (k : String)
    (hw : ∀ u ∈ us, netWrite u.sets k = none) :
    lookupKey (perNode us n).props k = lookupKey n.props k := by
  induction us generalizing n with
  | nil => rfl
  | cons u rest ih =>
    rw [perNode_cons, ih _ (fun u2 h2 => hw u2 (List.mem_cons_of_mem _ h2)),
      lookupKey_updNode u n k (hw u (List.mem_cons_self _ _))]

theorem nodeMatches_perNode (us : List Ups) (u0 : Ups) (n : Node)
    (hw : ∀ u ∈ us, netWrite u.sets u0.keyProp = none) :
    nodeMatches u0 (perNode us n) = nodeMatches u0 n := by
  unfold nodeMatches
  rw [perNode_label, lookupKey_perNode us n u0.keyProp hw]

theorem matchSets_congr (us : List Ups) (n m : Node)
    (h : ∀ u ∈ us, nodeMatches u n = nodeMatches u m) :
    matchSets us n = matchSets us m := by
  unfold matchSets
  congr 1
  exact List.filter_congr h

theorem propsWF_updNode (u : Ups) (n : Node) (h : PropsWF n.props) :
    PropsWF (updNode u n).props := by
  unfold updNode
  by_cases hm : nodeMatches u n
  · simp only [hm, if_pos]
    exact propsWF_applySet u.sets n.props h
  · simp only [hm]
    simpa using h

/-- Pair-stability: statements generated by the entity-creation step never
write each other's natural-key properties. -/
theorem netWrite_keyProp_none (u u0 : Ups) (hk : KeyProtected u0) (hw : WritesNoKeys u) :
    netWrite u.sets u0.keyProp = none := by
  rcases hk with h | h <;> rw [h]
  · exact hw.1
  · exact hw.2

/-- Cumulative per-node effect: the matching `SET` clauses, chained. -/
theorem perNode_eq (us : List Ups) (n : Node)
    (hkp : ∀ u ∈ us, KeyProtected u) (hwk : ∀ u ∈ us, WritesNoKeys u) :
    perNode us n = { n with props := applySetChain n.props (matchSets us n) } := by
  induction us generalizing n with
  | nil => rfl
  | cons u rest ih =>
    have hkpr : ∀ u2 ∈ rest, KeyProtected u2 :=
      fun u2 h2 => hkp u2 (List.mem_cons_of_mem _ h2)
    have hwkr : ∀ u2 ∈ rest, WritesNoKeys u2 :=
      fun u2 h2 => hwk u2 (List.mem_cons_of_mem _ h2)
    rw [perNode_cons, ih (updNode u n) hkpr hwkr]
    have hms : matchSets rest (updNode u n) = matchSets rest n := by
      apply matchSets_congr
      intro u2 h2
      exact nodeMatches_updNode u u2 n
        (netWrite_keyProp_none u u2 (hkp u2 (List.mem_cons_of_mem _ h2))
          (hwk u (List.mem_cons_self _ _)))
    rw [hms]
    by_cases hm : nodeMatches u n
    · have hcons : matchSets (u :: rest) n = u.sets :: matchSets rest n := by
        simp [matchSets, hm]
      rw [hcons]
      unfold updNode
      rw [if_pos hm]
      rfl
    · have hcons : matchSets (u :: rest) n = matchSets rest n := by
        simp [matchSets, hm]
      rw [hcons]
      unfold updNode
      rw [if_neg hm]

theorem graphWF_mergeNode (g : Graph) (u : Ups) (h : GraphWF g) :
    GraphWF (mergeNode g u) := by
  unfold mergeNode
  by_cases hm : g.nodes.any (nodeMatches u)
  · rw [if_pos hm]
    intro n hn
    rcases List.mem_map.mp hn with ⟨m, hm2, he⟩
    rw [← he]
    exact propsWF_updNode u m (h m hm2)
  · rw [if_neg hm]
    intro n hn
    rcases List.mem_append.mp hn with hn1 | hn1
    · exact h n hn1
    · rcases List.mem_singleton.mp hn1 with he
      rw [he]
      apply propsWF_applySet
      simp [PropsWF]

/-- A matched pattern stays matched under later statements. -/
theorem exists_match_runUps (us : List Ups) (g : Graph) (u0 : Ups)
    (hk : KeyProtected u0) (hwk : ∀ u ∈ us, WritesNoKeys u)
    (hex : ∃ n ∈ g.nodes, nodeMatches u0 n) :
    ∃ n ∈ (runUps g us).nodes, nodeMatches u0 n := by
  induction us generalizing g with
  | nil => exact hex
  | cons u rest ih =>
    show ∃ n ∈ (runUps (mergeNode g u) rest).nodes, nodeMatches u0 n
    apply ih (mergeNode g u) (fun u2 h2 => hwk u2 (List.mem_cons_of_mem _ h2))
    obtain ⟨m, hm, hmatch⟩ := hex
    unfold mergeNode
    by_cases ha : g.nodes.any (nodeMatches u)
    · rw [if_pos ha]
      refine ⟨updNode u m, List.mem_map.mpr ⟨m, hm, rfl⟩, ?_⟩
      rw [nodeMatches_updNode u u0 m
        (netWrite_keyProp_none u u0 hk (hwk u (List.mem_cons_self _ _)))]
      exact hmatch
    · rw [if_neg ha]
      exact ⟨m, List.mem_append.mpr (Or.inl hm), hmatch⟩

/-- Every statement has a matching node after the run. -/
theorem runUps_exists_match (us : List Ups) (g : Graph)
    (hkp : ∀ u ∈ us, KeyProtected u) (hwk : ∀ u ∈ us, WritesNoKeys u) :
    ∀ u ∈ us, ∃ n ∈ (runUps g us).nodes, nodeMatches u n := by
  induction us generalizing g with
  | nil => intro u hu; cases hu
  | cons u rest ih =>
    intro u2 hu2
    have hkpr : ∀ v ∈ rest, KeyProtected v :=
      fun v hv => hkp v (List.mem_cons_of_mem _ hv)
    have hwkr : ∀ v ∈ rest, WritesNoKeys v :=
      fun v hv => hwk v (List.mem_cons_of_mem _ hv)
    rcases List.mem_cons.mp hu2 with he | hmem
    · subst he
      show ∃ n ∈ (runUps (mergeNode g u2) rest).nodes, nodeMatches u2 n
      apply exists_match_runUps rest (mergeNode g u2) u2 (hkp u2 (List.mem_cons_self _ _)) hwkr
      unfold mergeNode
      by_cases ha : g.nodes.any (nodeMatches u2)
      · rw [if_pos ha]
        rcases List.any_eq_true.mp ha with ⟨m, hm, hmatch⟩
        refine ⟨updNode u2 m, List.mem_map.mpr ⟨m, hm, rfl⟩, ?_⟩
        rw [nodeMatches_updNode u2 u2 m
          (netWrite_keyProp_none u2 u2 (hkp u2 (List.mem_cons_self _ _))
            (hwk u2 (List.mem_cons_self _ _)))]
        exact hmatch
      · rw [if_neg ha]
        refine ⟨⟨freshId g, u2.label, applySet [(u2.keyProp, u2.keyVal)] u2.sets⟩,
          List.mem_append.mpr (Or.inr (List.mem_singleton.mpr rfl)), ?_⟩
        rw [nodeMatches_iff]
        constructor
        · rfl
        · rw [lookupKey_applySet,
            netWrite_keyProp_none u2 u2 (hkp u2 (List.mem_cons_self _ _))
              (hwk u2 (List.mem_cons_self _ _))]
          simp [applyNet, lookupKey]
    · exact ih (mergeNode g u) hkpr hwkr u2 hmem

/-- When every statement already has a match, the run is a pure node map. -/
theorem runUps_all_match (us : List Ups) (g : Graph)
    (hkp : ∀ u ∈ us, KeyProtected u) (hwk : ∀ u ∈ us, WritesNoKeys u)
    (hex : ∀ u ∈ us, ∃ n ∈ g.nodes, nodeMatches u n) :
    runUps g us = ⟨g.nodes.map (perNode us), g.edges⟩ := by
  induction us generalizing g with
  | nil =>
    show g = _
    cases g with
    | mk ns es =>
      have hmap : ns.map (perNode []) = ns := by
        induction ns with
        | nil => rfl
        | cons a t iht => simp [perNode_nil, iht]
      simp [hmap]
  | cons u rest ih =>
    have hkpr : ∀ v ∈ rest, KeyProtected v :=
      fun v hv => hkp v (List.mem_cons_of_mem _ hv)
    have hwkr : ∀ v ∈ rest, WritesNoKeys v :=
      fun v hv => hwk v (List.mem_cons_of_mem _ hv)
    have ha : g.nodes.any (nodeMatches u) = true := by
      rcases hex u (List.mem_cons_self _ _) with ⟨n, hn, hm⟩
      exact List.any_eq_true.mpr ⟨n, hn, hm⟩
    show runUps (mergeNode g u) rest = _
    have hg : mergeNode g u = { g with nodes := g.nodes.map (updNode u) } := by
      unfold mergeNode
      rw [if_pos ha]
    rw [hg]
    have hex2 : ∀ v ∈ rest, ∃ n ∈ (g.nodes.map (updNode u)), nodeMatches v n := by
      intro v hv
      rcases hex v (List.mem_cons_of_mem _ hv) with ⟨n, hn, hm⟩
      refine ⟨updNode u n, List.mem_map.mpr ⟨n, hn, rfl⟩, ?_⟩
      rw [nodeMatches_updNode u v n
        (netWrite_keyProp_none u v (hkp v (List.mem_cons_of_mem _ hv))
          (hwk u (List.mem_cons_self _ _)))]
      exact hm
    rw [ih { g with nodes := g.nodes.map (updNode u) } hkpr hwkr hex2]
    congr 1
    rw [List.map_map]
    rfl

theorem netChain_none (C : List Props) (k : String)
    (h : ∀ s ∈ C, netWrite s k = none) : netChain C k = none := by
  induction C with
  | nil => rfl
  | cons s r ih =>
    show (match netChain r k with
      | some v => some v
      | none => netWrite s k) = none
    rw [ih (fun s2 h2 => h s2 (List.mem_cons_of_mem _ h2))]
    exact h s (List.mem_cons_self _ _)

theorem nodeMatches_setProps (u0 : Ups) (n : Node) (sets : Props)
    (hw : netWrite sets u0.keyProp = none) :
    nodeMatches u0 { n with props := applySet n.props sets } = nodeMatches u0 n := by
  unfold nodeMatches
  rw [show ({ n with props := applySet n.props sets } : Node).props
      = applySet n.props sets from rfl]
  rw [lookupKey_applySet, hw]
  rfl

theorem nodeMatches_setChain (u0 : Ups) (n : Node) (C : List Props)
    (hw : netChain C u0.keyProp = none) :
    nodeMatches u0 { n with props := applySetChain n.props C } = nodeMatches u0 n := by
  unfold nodeMatches
  rw [show ({ n with props := applySetChain n.props C } : Node).props
      = applySetChain n.props C from rfl]
  rw [lookupKey_applySetChain, hw]
  rfl

theorem matchSets_sets_mem (us : List Ups) (n : Node) (s : Props)
    (hs : s ∈ matchSets us n) : ∃ u ∈ us, s = u.sets := by
  unfold matchSets at hs
  rcases List.mem_map.mp hs with ⟨u, hu, he⟩
  exact ⟨u, (List.mem_filter.mp hu).1, he.symm⟩

theorem map_perNode_nil (ns : List Node) : ns.map (perNode []) = ns := by
  induction ns with
  | nil => rfl
  | cons a t ih => simp [perNode_nil, ih]

theorem node_eq_of_fields (a b : Node) (h1 : a.id = b.id) (h2 : a.label = b.label)
    (h3 : a.props = b.props) : a = b := by
  cases a; cases b
  simp only [] at h1 h2 h3
  simp [h1, h2, h3]

/-- Structure of a run from an arbitrary graph: existing nodes receive their
matching `SET` chains in place; created nodes are appended, are fixed points
of a replay, and never match a pattern that already had a match before the
run. -/
theorem runUps_char (us : List Ups) (g : Graph)
    (hkp : ∀ u ∈ us, KeyProtected u) (hwk : ∀ u ∈ us, WritesNoKeys u) :
    ∃ cr : List Node,
      runUps g us = ⟨g.nodes.map (perNode us) ++ cr, g.edges⟩ ∧
      (∀ n ∈ cr, perNode us n = n) ∧
      (∀ n ∈ cr, ∀ u0 : Ups, KeyProtected u0 →
        (∃ m ∈ g.nodes, nodeMatches u0 m) → ¬ nodeMatches u0 n = true) := by
  induction us generalizing g with
  | nil =>
    refine ⟨[], ?_, ?_, ?_⟩
    · show g = _
      cases g with
      | mk ns es => simp [map_perNode_nil]
    · intro n hn; cases hn
    · intro n hn; cases hn
  | cons u rest ih =>
    have hkpr : ∀ v ∈ rest, KeyProtected v :=
      fun v hv => hkp v (List.mem_cons_of_mem _ hv)
    have hwkr : ∀ v ∈ rest, WritesNoKeys v :=
      fun v hv => hwk v (List.mem_cons_of_mem _ hv)
    have hku : KeyProtected u := hkp u (List.mem_cons_self _ _)
    have hwu : WritesNoKeys u := hwk u (List.mem_cons_self _ _)
    by_cases ha : g.nodes.any (nodeMatches u) = true
    · -- u already has a match: the step is a pure node map
      have hg : mergeNode g u = { g with nodes := g.nodes.map (updNode u) } := by
        unfold mergeNode; rw [if_pos ha]
      obtain ⟨cr', hshape', hfix', hnoc'⟩ :=
        ih { g with nodes := g.nodes.map (updNode u) } hkpr hwkr
      have hexg' : ∃ m ∈ ({ g with nodes := g.nodes.map (updNode u) } : Graph).nodes,
          nodeMatches u m = true := by
        rcases List.any_eq_true.mp ha with ⟨m, hm, hmatch⟩
        refine ⟨updNode u m, List.mem_map.mpr ⟨m, hm, rfl⟩, ?_⟩
        rw [nodeMatches_updNode u u m (netWrite_keyProp_none u u hku hwu)]
        exact hmatch
      refine ⟨cr', ?_, ?_, ?_⟩
      · show runUps (mergeNode g u) rest = _
        rw [hg, hshape']
        congr 1
        rw [show ({ g with nodes := g.nodes.map (updNode u) } : Graph).nodes
            = g.nodes.map (updNode u) from rfl, List.map_map]
        rfl
      · intro n hn
        have hnm : ¬ nodeMatches u n = true := hnoc' n hn u hku hexg'
        rw [perNode_cons, show updNode u n = n from by unfold updNode; rw [if_neg hnm]]
        exact hfix' n hn
      · intro n hn u0 hk0 hex0
        apply hnoc' n hn u0 hk0
        obtain ⟨m, hm, hmatch⟩ := hex0
        refine ⟨updNode u m, List.mem_map.mpr ⟨m, hm, rfl⟩, ?_⟩
        rw [nodeMatches_updNode u u0 m (netWrite_keyProp_none u u0 hk0 hwu)]
        exact hmatch
    · -- no match for u: a node is created
      have hnone : ∀ m ∈ g.nodes, ¬ nodeMatches u m = true := by
        intro m hm hc
        exact ha (List.any_eq_true.mpr ⟨m, hm, hc⟩)
      have hg : mergeNode g u = { g with nodes := g.nodes ++
          [⟨freshId g, u.label, applySet [(u.keyProp, u.keyVal)] u.sets⟩] } := by
        unfold mergeNode; rw [if_neg ha]
      obtain ⟨cr', hshape', hfix', hnoc'⟩ :=
        ih { g with nodes := g.nodes ++
          [⟨freshId g, u.label, applySet [(u.keyProp, u.keyVal)] u.sets⟩] } hkpr hwkr
      have hn0lab : (⟨freshId g, u.label,
          applySet [(u.keyProp, u.keyVal)] u.sets⟩ : Node).label = u.label := rfl
      have hn0look : lookupKey (⟨freshId g, u.label,
          applySet [(u.keyProp, u.keyVal)] u.sets⟩ : Node).props u.keyProp
          = some u.keyVal := by
        rw [show (⟨freshId g, u.label, applySet [(u.keyProp, u.keyVal)] u.sets⟩ :
          Node).props = applySet [(u.keyProp, u.keyVal)] u.sets from rfl]
        rw [lookupKey_applySet, netWrite_keyProp_none u u hku hwu]
        simp [applyNet, lookupKey]
      have hn0 : nodeMatches u
          (⟨freshId g, u.label, applySet [(u.keyProp, u.keyVal)] u.sets⟩ : Node) = true := by
        rw [nodeMatches_iff]
        exact ⟨hn0lab, hn0look⟩
      refine ⟨perNode rest
        ⟨freshId g, u.label, applySet [(u.keyProp, u.keyVal)] u.sets⟩ :: cr', ?_, ?_, ?_⟩
      · show runUps (mergeNode g u) rest = _
        rw [hg, hshape']
        congr 1
        rw [show ({ g with nodes := g.nodes ++
            [⟨freshId g, u.label, applySet [(u.keyProp, u.keyVal)] u.sets⟩] } : Graph).nodes
            = g.nodes ++
            [⟨freshId g, u.label, applySet [(u.keyProp, u.keyVal)] u.sets⟩] from rfl]
        rw [List.map_append]
        have hmapeq : g.nodes.map (perNode rest) = g.nodes.map (perNode (u :: rest)) := by
          apply List.map_congr_left
          intro m hm
          rw [perNode_cons, show updNode u m = m from by
            unfold updNode; rw [if_neg (hnone m hm)]]
        rw [hmapeq]
        simp
      · intro n hn
        rcases List.mem_cons.mp hn with he | hn'
        · subst he
          -- replaying on the created node is a no-op
          have hwrest : ∀ u2 ∈ rest, netWrite u2.sets u.keyProp = none :=
            fun u2 h2 => netWrite_keyProp_none u2 u hku (hwkr u2 h2)
          have hmu : nodeMatches u (perNode rest
              ⟨freshId g, u.label, applySet [(u.keyProp, u.keyVal)] u.sets⟩) = true := by
            rw [nodeMatches_perNode rest u _ hwrest]
            exact hn0
          have hpe0 := perNode_eq rest
            ⟨freshId g, u.label, applySet [(u.keyProp, u.keyVal)] u.sets⟩ hkpr hwkr
          have hCnet : ∀ u2 ∈ rest, netChain (matchSets rest
              ⟨freshId g, u.label, applySet [(u.keyProp, u.keyVal)] u.sets⟩)
              u2.keyProp = none := by
            intro u2 h2
            apply netChain_none
            intro s hs
            rcases matchSets_sets_mem _ _ _ hs with ⟨u3, h3, he3⟩
            rw [he3]
            exact netWrite_keyProp_none u3 u2 (hkpr u2 h2) (hwkr u3 h3)
          have hms2 : matchSets rest (perNode rest
              ⟨freshId g, u.label, applySet [(u.keyProp, u.keyVal)] u.sets⟩)
              = matchSets rest
              ⟨freshId g, u.label, applySet [(u.keyProp, u.keyVal)] u.sets⟩ := by
            apply matchSets_congr
            intro u2 h2
            rw [hpe0]
            exact nodeMatches_setChain u2 _ _ (hCnet u2 h2)
          apply node_eq_of_fields
          · rw [perNode_id]
          · rw [perNode_label]
          · have hprops : (perNode (u :: rest) (perNode rest
                ⟨freshId g, u.label, applySet [(u.keyProp, u.keyVal)] u.sets⟩)).props
                = applySetChain (perNode rest
                  ⟨freshId g, u.label, applySet [(u.keyProp, u.keyVal)] u.sets⟩).props
                  (matchSets (u :: rest) (perNode rest
                  ⟨freshId g, u.label, applySet [(u.keyProp, u.keyVal)] u.sets⟩)) := by
              rw [perNode_eq (u :: rest) _ hkp hwk]
            rw [hprops]
            have hconsms : matchSets (u :: rest) (perNode rest
                ⟨freshId g, u.label, applySet [(u.keyProp, u.keyVal)] u.sets⟩)
                = u.sets :: matchSets rest (perNode rest
                ⟨freshId g, u.label, applySet [(u.keyProp, u.keyVal)] u.sets⟩) := by
              simp [matchSets, List.filter_cons, hmu]
            rw [hconsms, hms2]
            have hpn0props : (perNode rest
                ⟨freshId g, u.label, applySet [(u.keyProp, u.keyVal)] u.sets⟩).props
                = applySetChain [(u.keyProp, u.keyVal)]
                  (u.sets :: matchSets rest
                  ⟨freshId g, u.label, applySet [(u.keyProp, u.keyVal)] u.sets⟩) := by
              rw [hpe0]
              rfl
            rw [hpn0props]
            exact applySetChain_idem
              (u.sets :: matchSets rest
                ⟨freshId g, u.label, applySet [(u.keyProp, u.keyVal)] u.sets⟩)
              [(u.keyProp, u.keyVal)] (by simp [PropsWF])
        · have hexn0 : ∃ m ∈ ({ g with nodes := g.nodes ++
              [⟨freshId g, u.label, applySet [(u.keyProp, u.keyVal)] u.sets⟩] } :
              Graph).nodes, nodeMatches u m = true :=
            ⟨_, List.mem_append.mpr (Or.inr (List.mem_singleton.mpr rfl)), hn0⟩
          have hnm : ¬ nodeMatches u n = true := hnoc' n hn' u hku hexn0
          rw [perNode_cons, show updNode u n = n from by unfold updNode; rw [if_neg hnm]]
          exact hfix' n hn'
      · intro n hn u0 hk0 hex0
        obtain ⟨m, hm, hmatch⟩ := hex0
        rcases List.mem_cons.mp hn with he | hn'
        · subst he
          rw [nodeMatches_perNode rest u0 _
            (fun u3 h3 => netWrite_keyProp_none u3 u0 hk0 (hwkr u3 h3))]
          intro hc
          rw [nodeMatches_iff] at hc
          obtain ⟨hlab, hlook⟩ := hc
          rw [show (⟨freshId g, u.label, applySet [(u.keyProp, u.keyVal)] u.sets⟩ :
            Node).props = applySet [(u.keyProp, u.keyVal)] u.sets from rfl] at hlook
          rw [lookupKey_applySet, netWrite_keyProp_none u u0 hk0 hwu] at hlook
          by_cases hkk : u.keyProp = u0.keyProp
          · have hlook2 : some u.keyVal = some u0.keyVal := by
              rw [show lookupKey [(u.keyProp, u.keyVal)] u0.keyProp
                = some u.keyVal from by rw [lookupKey_cons, if_pos hkk]] at hlook
              exact hlook
            have hvv : u.keyVal = u0.keyVal := Option.some.inj hlook2
            apply hnone m hm
            rw [nodeMatches_iff]
            rcases nodeMatches_iff u0 m |>.mp hmatch with ⟨hmlab, hmlook⟩
            constructor
            · rw [hmlab, ← hlab]
            · rw [hkk, hmlook, hvv]
          · rw [show lookupKey [(u.keyProp, u.keyVal)] u0.keyProp = none from by
              rw [lookupKey_cons, if_neg hkk]; rfl] at hlook
            simp [applyNet] at hlook
        · apply hnoc' n hn' u0 hk0
          exact ⟨m, List.mem_append.mpr (Or.inl hm), hmatch⟩

theorem perNode_idem (us : List Ups) (n : Node)
    (hkp : ∀ u ∈ us, KeyProtected u) (hwk : ∀ u ∈ us, WritesNoKeys u)
    (hwf : PropsWF n.props) :
    perNode us (perNode us n) = perNode us n := by
  have h1 := perNode_eq us n hkp hwk
  have hms : matchSets us (perNode us n) = matchSets us n := by
    apply matchSets_congr
    intro u2 h2
    rw [h1]
    apply nodeMatches_setChain u2
    apply netChain_none
    intro s hs
    rcases matchSets_sets_mem _ _ _ hs with ⟨u3, h3, he3⟩
    rw [he3]
    exact netWrite_keyProp_none u3 u2 (hkp u2 h2) (hwk u3 h3)
  apply node_eq_of_fields
  · rw [perNode_id, perNode_id]
  · rw [perNode_label, perNode_label]
  · rw [show (perNode us (perNode us n)).props
      = applySetChain (perNode us n).props (matchSets us (perNode us n)) from by
        rw [perNode_eq us _ hkp hwk]]
    rw [hms]
    rw [show (perNode us n).props
      = applySetChain n.props (matchSets us n) from by rw [h1]]
    exact applySetChain_idem _ _ hwf

/-- Replaying the same upsert statement list leaves the store unchanged. -/
theorem runUps_idem (us : List Ups) (g : Graph)
    (hkp : ∀ u ∈ us, KeyProtected u) (hwk : ∀ u ∈ us, WritesNoKeys u)
    (hwf : GraphWF g) :
    runUps (runUps g us) us = runUps g us := by
  obtain ⟨cr, hshape, hfix, hnoc⟩ := runUps_char us g hkp hwk
  have hex : ∀ u ∈ us, ∃ n ∈ (runUps g us).nodes, nodeMatches u n :=
    runUps_exists_match us g hkp hwk
  rw [hshape] at hex
  rw [hshape]
  rw [runUps_all_match us _ hkp hwk hex]
  show (⟨(g.nodes.map (perNode us) ++ cr).map (perNode us), g.edges⟩ : Graph) = _
  congr 1
  rw [List.map_append, List.map_map]
  congr 1
  · apply List.map_congr_left
    intro m hm
    exact perNode_idem us m hkp hwk (hwf m hm)
  · rw [show cr.map (perNode us) = cr.map id from
      List.map_congr_left (fun a ha => hfix a ha), List.map_id]

/-! ## Entity records and `create_entities_in_neo4j`
(`src/text_ingestion.py`, lines 268-413) -/

/-- A Python dict record (entity or relationship) as a key/value list. -/
abbrev Rec := List (String × Val)

/-- `r[k]` / `r.get(k)`: the stored value, if any. -/
def recGet? (r : Rec) (k : String) : Option Val := lookupKey r k

/-- `r.get(k, d)`: lookup with default. -/
def recGetD (r : Rec) (k : String) (d : Val) : Val := (recGet? r k).getD d

/-- Bucket map `entities` (a Python dict of lists). -/
abbrev Entities := List (String × List Rec)

/-- `d.get(k, [])`. -/
def dictGet (d : Entities) (k : String) : List Rec :=
  match d with
  | [] => []
  | (k1, v) :: t => if k1 = k then v else dictGet t k

/-- `d[k] = v` (overwrite in place, else append — Python dict assignment). -/
def dictSet (d : Entities) (k : String) (v : List Rec) : Entities :=
  match d with
  | [] => [(k, v)]
  | (k1, v1) :: t => if k1 = k then (k1, v) :: t else (k1, v1) :: dictSet t k v

/-- `SET` clause for a character record; `datetime()` is modelled by the
clock value `t` passed in. -/
def charSets (testing : Bool) (t : Int) (r : Rec) : Props :=
  [("description", recGetD r "description" (Val.str "")),
   ("age", recGetD r "age" Val.null),
   ("role", recGetD r "role" (Val.str "")),
   ("traits", recGetD r "traits" (Val.strList []))] ++
  (if testing then [("_test_marker", Val.boolean true), ("_test_timestamp", Val.num t)]
   else [])

/-- `SET` clause for a location record. -/
def locSets (testing : Bool) (t : Int) (r : Rec) : Props :=
  [("type", recGetD r "type" (Val.str "")),
   ("description", recGetD r "description" (Val.str ""))] ++
  (if testing then [("_test_marker", Val.boolean true), ("_test_timestamp", Val.num t)]
   else [])

/-- `SET` clause for a scene record. -/
def sceneSets (testing : Bool) (t : Int) (r : Rec) : Props :=
  [("summary", recGetD r "summary" (Val.str "")),
   ("setting", recGetD r "setting" (Val.str "")),
   ("mood", recGetD r "mood" (Val.str ""))] ++
  (if testing then [("_test_marker", Val.boolean true), ("_test_timestamp", Val.num t)]
   else [])

/-- `SET` clause for a theme record. -/
def themeSets (testing : Bool) (t : Int) (r : Rec) : Props :=
  [("description", recGetD r "description" (Val.str ""))] ++
  (if testing then [("_test_marker", Val.boolean true), ("_test_timestamp", Val.num t)]
   else [])

/-- `SET` clause for a plot-point record. -/
def plotSets (testing : Bool) (t : Int) (r : Rec) : Props :=
  [("description", recGetD r "description" (Val.str "")),
   ("importance", recGetD r "importance" (Val.str "")),
   ("type", recGetD r "type" (Val.str ""))] ++
  (if testing then [("_test_marker", Val.boolean true), ("_test_timestamp", Val.num t)]
   else [])

/-- `SET` clause for a tag record. -/
def tagSets (testing : Bool) (t : Int) (r : Rec) : Props :=
  [("category", recGetD r "category" (Val.str "")),
   ("value", recGetD r "value" (Val.str "")),
   ("description", recGetD r "description" (Val.str ""))] ++
  (if testing then [("_test_marker", Val.boolean true), ("_test_timestamp", Val.num t)]
   else [])

/-- A usable natural-key value: Python raises `KeyError` on a missing key and
Neo4j rejects a `MERGE` on a null property; both abort the whole
entity-creation call. -/
def keyOk? (v : Option Val) : Option Val :=
  match v with
  | none => none
  | some Val.null => none
  | some v => some v

/-- Compile one bucket's loop body into upsert statements.  The `Bool` is
false when the loop raises (missing/null natural key); the statements built
before the raise were already executed. -/
def buildBucket (label keyProp : String) (mk : Rec → Props) : List Rec → List Ups × Bool
  | [] => ([], true)
  | r :: rest =>
    match keyOk? (recGet? r keyProp) with
    | none => ([], false)
    | some v =>
      let p := buildBucket label keyProp mk rest
      (⟨label, keyProp, v, mk r⟩ :: p.1, p.2)

/-- Sequence two bucket loops: a raise skips everything after it. -/
def seqB (a : List Ups × Bool) (b : List Ups × Bool) : List Ups × Bool :=
  if a.2 then (a.1 ++ b.1, b.2) else a

/-- Compile `create_entities_in_neo4j`'s six bucket loops, in source order. -/
def buildUps (e : Entities) (testing : Bool) (t : Int) : List Ups × Bool :=
  seqB (buildBucket "Character" "name" (charSets testing t) (dictGet e "characters"))
    (seqB (buildBucket "Location" "name" (locSets testing t) (dictGet e "locations"))
      (seqB (buildBucket "Scene" "title" (sceneSets testing t) (dictGet e "scenes"))
        (seqB (buildBucket "Theme" "name" (themeSets testing t) (dictGet e "themes"))
          (seqB (buildBucket "PlotPoint" "title" (plotSets testing t)
              (dictGet e "plot_points"))
            (buildBucket "Tag" "name" (tagSets testing t) (dictGet e "tags"))))))

/-- `create_entities_in_neo4j`: run the upserts; the flag is false when the
loop raised (after the statements before the raise already ran). -/
def createEntitiesInNeo4j (g : Graph) (e : Entities) (testing : Bool) (t : Int) :
    Graph × Bool :=
  ((buildUps e testing t).1.foldl mergeNode g, (buildUps e testing t).2)

theorem buildBucket_mem (label keyProp : String) (mk : Rec → Props) (rs : List Rec)
    (u : Ups) (hu : u ∈ (buildBucket label keyProp mk rs).1) :
    u.label = label ∧ u.keyProp = keyProp ∧ ∃ r, u.sets = mk r := by
  induction rs with
  | nil => cases hu
  | cons r rest ih =>
    by_cases hh : keyOk? (recGet? r keyProp) = none
    · simp [buildBucket, hh] at hu
    · rcases Option.ne_none_iff_exists.mp hh with ⟨v, hv⟩
      simp [buildBucket, ← hv] at hu
      rcases hu with he | hm
      · rw [he]
        exact ⟨rfl, rfl, r, rfl⟩
      · exact ih hm

theorem seqB_mem (a b : List Ups × Bool) (u : Ups) (hu : u ∈ (seqB a b).1) :
    u ∈ a.1 ∨ u ∈ b.1 := by
  unfold seqB at hu
  by_cases h : a.2 <;> simp [h] at hu
  · exact hu
  · exact Or.inl hu

theorem charSets_wnk (testing : Bool) (t : Int) (r : Rec) :
    netWrite (charSets testing t r) "name" = none ∧
    netWrite (charSets testing t r) "title" = none := by
  cases testing <;> exact ⟨rfl, rfl⟩

theorem locSets_wnk (testing : Bool) (t : Int) (r : Rec) :
    netWrite (locSets testing t r) "name" = none ∧
    netWrite (locSets testing t r) "title" = none := by
  cases testing <;> exact ⟨rfl, rfl⟩

theorem sceneSets_wnk (testing : Bool) (t : Int) (r : Rec) :
    netWrite (sceneSets testing t r) "name" = none ∧
    netWrite (sceneSets testing t r) "title" = none := by
  cases testing <;> exact ⟨rfl, rfl⟩

theorem themeSets_wnk (testing : Bool) (t : Int) (r : Rec) :
    netWrite (themeSets testing t r) "name" = none ∧
    netWrite (themeSets testing t r) "title" = none := by
  cases testing <;> exact ⟨rfl, rfl⟩

theorem plotSets_wnk (testing : Bool) (t : Int) (r : Rec) :
    netWrite (plotSets testing t r) "name" = none ∧
    netWrite (plotSets testing t r) "title" = none := by
  cases testing <;> exact ⟨rfl, rfl⟩

theorem tagSets_wnk (testing : Bool) (t : Int) (r : Rec) :
    netWrite (tagSets testing t r) "name" = none ∧
    netWrite (tagSets testing t r) "title" = none := by
  cases testing <;> exact ⟨rfl, rfl⟩

theorem buildUps_keyProtected (e : Entities) (testing : Bool) (t : Int) :
    ∀ u ∈ (buildUps e testing t).1, KeyProtected u := by
  intro u hu
  unfold buildUps at hu
  rcases seqB_mem _ _ _ hu with h | h
  · exact Or.inl (buildBucket_mem _ _ _ _ _ h).2.1
  rcases seqB_mem _ _ _ h with h | h
  · exact Or.inl (buildBucket_mem _ _ _ _ _ h).2.1
  rcases seqB_mem _ _ _ h with h | h
  · exact Or.inr (buildBucket_mem _ _ _ _ _ h).2.1
  rcases seqB_mem _ _ _ h with h | h
  · exact Or.inl (buildBucket_mem _ _ _ _ _ h).2.1
  rcases seqB_mem _ _ _ h with h | h
  · exact Or.inr (buildBucket_mem _ _ _ _ _ h).2.1
  · exact Or.inl (buildBucket_mem _ _ _ _ _ h).2.1

theorem buildUps_writesNoKeys (e : Entities) (testing : Bool) (t : Int) :
    ∀ u ∈ (buildUps e testing t).1, WritesNoKeys u := by
  intro u hu
  unfold buildUps at hu
  rcases seqB_mem _ _ _ hu with h | h
  · rcases (buildBucket_mem _ _ _ _ _ h).2.2 with ⟨r, hr⟩
    rw [WritesNoKeys, hr]; exact charSets_wnk testing t r
  rcases seqB_mem _ _ _ h with h | h
  · rcases (buildBucket_mem _ _ _ _ _ h).2.2 with ⟨r, hr⟩
    rw [WritesNoKeys, hr]; exact locSets_wnk testing t r
  rcases seqB_mem _ _ _ h with h | h
  · rcases (buildBucket_mem _ _ _ _ _ h).2.2 with ⟨r, hr⟩
    rw [WritesNoKeys, hr]; exact sceneSets_wnk testing t r
  rcases seqB_mem _ _ _ h with h | h
  · rcases (buildBucket_mem _ _ _ _ _ h).2.2 with ⟨r, hr⟩
    rw [WritesNoKeys, hr]; exact themeSets_wnk testing t r
  rcases seqB_mem _ _ _ h with h | h
  · rcases (buildBucket_mem _ _ _ _ _ h).2.2 with ⟨r, hr⟩
    rw [WritesNoKeys, hr]; exact plotSets_wnk testing t r
  · rcases (buildBucket_mem _ _ _ _ _ h).2.2 with ⟨r, hr⟩
    rw [WritesNoKeys, hr]; exact tagSets_wnk testing t r

/-! ## Tag parsing (`parse_tags`, `src/text_ingestion.py` lines 91-158) -/

/-- Python `\w` over the ASCII range (the repository's inputs): letters,
digits, underscore. -/
def isWordChar (c : Char) : Bool :=
  (decide ('A' ≤ c) && decide (c ≤ 'Z')) || (decide ('a' ≤ c) && decide (c ≤ 'z')) ||
  (decide ('0' ≤ c) && decide (c ≤ '9')) || decide (c = '_')

/-- The regex class `[A-Za-z_]` of the tag value. -/
def isValueChar (c : Char) : Bool :=
  (decide ('A' ≤ c) && decide (c ≤ 'Z')) || (decide ('a' ≤ c) && decide (c ≤ 'z')) ||
  decide (c = '_')

/-- `takeWhile`/`dropWhile` split with a length bound for termination. -/
def spanWhile (p : Char → Bool) : List Char → List Char × List Char
  | [] => ([], [])
  | c :: cs =>
    if p c then
      let q := spanWhile p cs
      (c :: q.1, q.2)
    else ([], c :: cs)

theorem spanWhile_len (p : Char → Bool) (cs : List Char) :
    (spanWhile p cs).2.length ≤ cs.length := by
  induction cs with
  | nil => simp [spanWhile]
  | cons c cs ih =>
    by_cases h : p c
    · simp only [spanWhile, h, if_pos]
      exact Nat.le_succ_of_le ih
    · simp [spanWhile, h]

theorem spanWhile_append (p : Char → Bool) (cs : List Char) :
    (spanWhile p cs).1 ++ (spanWhile p cs).2 = cs := by
  induction cs with
  | nil => simp [spanWhile]
  | cons c cs ih =>
    by_cases h : p c
    · simp only [spanWhile, h, if_pos]
      simpa using ih
    · simp [spanWhile, h]

/-- The scanning loop of `re.findall(r'@(\w+):([A-Za-z_]+)', text)`: at each
`@`, greedily read word characters, require `:`, greedily read value
characters; on failure resume one character past the `@`, on success resume
after the match.  Every recursive call strictly shortens the list, so fuel
`length + 1` (supplied by `findTagMatches`) is never exhausted. -/
def findTagsGo : Nat → List Char → List (String × String)
  | 0, _ => []
  | _, [] => []
  | fuel + 1, c :: cs =>
    if c = '@' then
      match spanWhile isWordChar cs with
      | (w1, ':' :: cs2) =>
        if w1 ≠ [] then
          match spanWhile isValueChar cs2 with
          | (v1, rest) =>
            if v1 ≠ [] then (String.mk w1, String.mk v1) :: findTagsGo fuel rest
            else findTagsGo fuel cs
        else findTagsGo fuel cs
      | _ => findTagsGo fuel cs
    else findTagsGo fuel cs

/-- `re.findall(r'@(\w+):([A-Za-z_]+)', text)` over a character list. -/
def findTagMatches (cs : List Char) : List (String × String) :=
  findTagsGo (cs.length + 1) cs

/-- Python `str.lower()` over ASCII. -/
def pyLowerChar (c : Char) : Char :=
  if 'A' ≤ c ∧ c ≤ 'Z' then Char.ofNat (c.toNat + 32) else c

/-- `s.lower()`. -/
def pyLower (s : String) : String := String.mk (s.data.map pyLowerChar)

/-- Python `str.upper()` on one ASCII character, used by `str.title()`. -/
def pyUpperChar (c : Char) : Char :=
  if 'a' ≤ c ∧ c ≤ 'z' then Char.ofNat (c.toNat - 32) else c

/-- Is the character an ASCII letter (cased, for `str.title()` boundaries)? -/
def isAsciiLetter (c : Char) : Bool :=
  (decide ('A' ≤ c) && decide (c ≤ 'Z')) || (decide ('a' ≤ c) && decide (c ≤ 'z'))

/-- `str.title()` over ASCII: a letter after a non-letter is uppercased, a
letter after a letter is lowercased. -/
def pyTitleGo (prevLetter : Bool) : List Char → List Char
  | [] => []
  | c :: cs =>
    (if isAsciiLetter c then (if prevLetter then pyLowerChar c else pyUpperChar c) else c)
      :: pyTitleGo (isAsciiLetter c) cs

/-- `s.title()`. -/
def pyTitle (s : String) : String := String.mk (pyTitleGo false s.data)

/-- The character record `parse_tags` builds for `@character:v` (original
category spelling kept in the placeholder text). -/
def tagCharRec (cat v : String) : Rec :=
  [("name", Val.str v),
   ("description", Val.str ("Character mentioned via @" ++ cat ++ ":" ++ v)),
   ("role", Val.str "unknown")]

/-- Location record for `@location:v`. -/
def tagLocRec (cat v : String) : Rec :=
  [("name", Val.str v),
   ("description", Val.str ("Location mentioned via @" ++ cat ++ ":" ++ v)),
   ("type", Val.str "unknown")]

/-- Scene record for `@scene:v`. -/
def tagSceneRec (cat v : String) : Rec :=
  [("title", Val.str v),
   ("summary", Val.str ("Scene mentioned via @" ++ cat ++ ":" ++ v))]

/-- Theme record for `@theme:v`. -/
def tagThemeRec (cat v : String) : Rec :=
  [("name", Val.str v),
   ("description", Val.str ("Theme mentioned via @" ++ cat ++ ":" ++ v))]

/-- Story record for `@story:v`. -/
def tagStoryRec (cat v : String) : Rec :=
  [("title", Val.str v),
   ("summary", Val.str ("Story mentioned via @" ++ cat ++ ":" ++ v))]

/-- Generic tag record for any other category. -/
def tagTagRec (cat v : String) : Rec :=
  [("category", Val.str cat),
   ("value", Val.str v),
   ("name", Val.str (pyTitle cat ++ ": " ++ pyTitle v)),
   ("description", Val.str ("Tagged as @" ++ cat ++ ":" ++ v))]

/-- `entity_mapping` membership: the bucket for a known entity category. -/
def entityBucket? (cat : String) : Option String :=
  if pyLower cat = "character" then some "characters"
  else if pyLower cat = "location" then some "locations"
  else if pyLower cat = "scene" then some "scenes"
  else if pyLower cat = "theme" then some "themes"
  else if pyLower cat = "story" then some "stories"
  else none

/-- Append one parsed match to the bucket dictionary, as the loop body of
`parse_tags` does. -/
def addTagMatch (d : Entities) (m : String × String) : Entities :=
  match entityBucket? m.1 with
  | some "characters" => dictSet d "characters" (dictGet d "characters" ++ [tagCharRec m.1 m.2])
  | some "locations" => dictSet d "locations" (dictGet d "locations" ++ [tagLocRec m.1 m.2])
  | some "scenes" => dictSet d "scenes" (dictGet d "scenes" ++ [tagSceneRec m.1 m.2])
  | some "themes" => dictSet d "themes" (dictGet d "themes" ++ [tagThemeRec m.1 m.2])
  | some "stories" => dictSet d "stories" (dictGet d "stories" ++ [tagStoryRec m.1 m.2])
  | _ => dictSet d "tags" (dictGet d "tags" ++ [tagTagRec m.1 m.2])

/-- The empty six-bucket dictionary `parse_tags` starts from, in insertion
order. -/
def emptyParsed : Entities :=
  [("characters", []), ("locations", []), ("scenes", []), ("themes", []),
   ("stories", []), ("tags", [])]

/-- `parse_tags(text)`. -/
def parseTags (text : String) : Entities :=
  (findTagMatches text.data).foldl addTagMatch emptyParsed

/-- Classification target: character records come exactly from matches whose
category lowercases to "character". -/
def specCharacters (ms : List (String × String)) : List Rec :=
  ms.filterMap (fun m => if pyLower m.1 = "character" then some (tagCharRec m.1 m.2) else none)

/-- Location records from `@location:` matches. -/
def specLocations (ms : List (String × String)) : List Rec :=
  ms.filterMap (fun m => if pyLower m.1 = "location" then some (tagLocRec m.1 m.2) else none)

/-- Scene records from `@scene:` matches. -/
def specScenes (ms : List (String × String)) : List Rec :=
  ms.filterMap (fun m => if pyLower m.1 = "scene" then some (tagSceneRec m.1 m.2) else none)

/-- Theme records from `@theme:` matches. -/
def specThemes (ms : List (String × String)) : List Rec :=
  ms.filterMap (fun m => if pyLower m.1 = "theme" then some (tagThemeRec m.1 m.2) else none)

/-- Story records from `@story:` matches. -/
def specStories (ms : List (String × String)) : List Rec :=
  ms.filterMap (fun m => if pyLower m.1 = "story" then some (tagStoryRec m.1 m.2) else none)

/-- Generic tag records from every other category. -/
def specPlainTags (ms : List (String × String)) : List Rec :=
  ms.filterMap (fun m =>
    if pyLower m.1 = "character" ∨ pyLower m.1 = "location" ∨ pyLower m.1 = "scene" ∨
       pyLower m.1 = "theme" ∨ pyLower m.1 = "story" then none
    else some (tagTagRec m.1 m.2))

theorem foldl_addTagMatch (ms : List (String × String))
    (l1 l2 l3 l4 l5 l6 : List Rec) :
    ms.foldl addTagMatch
      [("characters", l1), ("locations", l2), ("scenes", l3), ("themes", l4),
       ("stories", l5), ("tags", l6)]
    = [("characters", l1 ++ specCharacters ms), ("locations", l2 ++ specLocations ms),
       ("scenes", l3 ++ specScenes ms), ("themes", l4 ++ specThemes ms),
       ("stories", l5 ++ specStories ms), ("tags", l6 ++ specPlainTags ms)] := by
  induction ms generalizing l1 l2 l3 l4 l5 l6 with
  | nil =>
    simp [specCharacters, specLocations, specScenes, specThemes, specStories, specPlainTags]
  | cons m ms ih =>
    show List.foldl addTagMatch (addTagMatch _ m) ms = _
    by_cases h1 : pyLower m.1 = "character"
    · have hstep : addTagMatch
          [("characters", l1), ("locations", l2), ("scenes", l3), ("themes", l4),
           ("stories", l5), ("tags", l6)] m
          = [("characters", l1 ++ [tagCharRec m.1 m.2]), ("locations", l2),
             ("scenes", l3), ("themes", l4), ("stories", l5), ("tags", l6)] := by
        unfold addTagMatch entityBucket?
        rw [if_pos h1]
        rfl
      rw [hstep, ih]
      simp [specCharacters, specLocations, specScenes, specThemes, specStories,
        specPlainTags, List.filterMap_cons, h1]
    · by_cases h2 : pyLower m.1 = "location"
      · have hstep : addTagMatch
            [("characters", l1), ("locations", l2), ("scenes", l3), ("themes", l4),
             ("stories", l5), ("tags", l6)] m
            = [("characters", l1), ("locations", l2 ++ [tagLocRec m.1 m.2]),
               ("scenes", l3), ("themes", l4), ("stories", l5), ("tags", l6)] := by
          unfold addTagMatch entityBucket?
          rw [if_neg h1, if_pos h2]
          rfl
        rw [hstep, ih]
        simp [specCharacters, specLocations, specScenes, specThemes, specStories,
          specPlainTags, List.filterMap_cons, h1, h2]
      · by_cases h3 : pyLower m.1 = "scene"
        · have hstep : addTagMatch
              [("characters", l1), ("locations", l2), ("scenes", l3), ("themes", l4),
               ("stories", l5), ("tags", l6)] m
              = [("characters", l1), ("locations", l2),
                 ("scenes", l3 ++ [tagSceneRec m.1 m.2]), ("themes", l4),
                 ("stories", l5), ("tags", l6)] := by
            unfold addTagMatch entityBucket?
            rw [if_neg h1, if_neg h2, if_pos h3]
            rfl
          rw [hstep, ih]
          simp [specCharacters, specLocations, specScenes, specThemes, specStories,
            specPlainTags, List.filterMap_cons, h1, h2, h3]
        · by_cases h4 : pyLower m.1 = "theme"
          · have hstep : addTagMatch
                [("characters", l1), ("locations", l2), ("scenes", l3), ("themes", l4),
                 ("stories", l5), ("tags", l6)] m
                = [("characters", l1), ("locations", l2), ("scenes", l3),
                   ("themes", l4 ++ [tagThemeRec m.1 m.2]), ("stories", l5),
                   ("tags", l6)] := by
              unfold addTagMatch entityBucket?
              rw [if_neg h1, if_neg h2, if_neg h3, if_pos h4]
              rfl
            rw [hstep, ih]
            simp [specCharacters, specLocations, specScenes, specThemes, specStories,
              specPlainTags, List.filterMap_cons, h1, h2, h3, h4]
          · by_cases h5 : pyLower m.1 = "story"
            · have hstep : addTagMatch
                  [("characters", l1), ("locations", l2), ("scenes", l3),
                   ("themes", l4), ("stories", l5), ("tags", l6)] m
                  = [("characters", l1), ("locations", l2), ("scenes", l3),
                     ("themes", l4), ("stories", l5 ++ [tagStoryRec m.1 m.2]),
                     ("tags", l6)] := by
                unfold addTagMatch entityBucket?
                rw [if_neg h1, if_neg h2, if_neg h3, if_neg h4, if_pos h5]
                rfl
              rw [hstep, ih]
              simp [specCharacters, specLocations, specScenes, specThemes, specStories,
                specPlainTags, List.filterMap_cons, h1, h2, h3, h4, h5]
            · have hstep : addTagMatch
                  [("characters", l1), ("locations", l2), ("scenes", l3),
                   ("themes", l4), ("stories", l5), ("tags", l6)] m
                  = [("characters", l1), ("locations", l2), ("scenes", l3),
                     ("themes", l4), ("stories", l5),
                     ("tags", l6 ++ [tagTagRec m.1 m.2])] := by
                unfold addTagMatch entityBucket?
                rw [if_neg h1, if_neg h2, if_neg h3, if_neg h4, if_neg h5]
                rfl
              rw [hstep, ih]
              simp [specCharacters, specLocations, specScenes, specThemes, specStories,
                specPlainTags, List.filterMap_cons, h1, h2, h3, h4, h5]

/-- The full classification of `parse_tags`, as bucket equations. -/
theorem parseTags_eq (text : String) :
    parseTags text
      = [("characters", specCharacters (findTagMatches text.data)),
         ("locations", specLocations (findTagMatches text.data)),
         ("scenes", specScenes (findTagMatches text.data)),
         ("themes", specThemes (findTagMatches text.data)),
         ("stories", specStories (findTagMatches text.data)),
         ("tags", specPlainTags (findTagMatches text.data))] := by
  unfold parseTags emptyParsed
  rw [foldl_addTagMatch]
  simp

/-! ## Claim theorems C4 and C5 -/

/-- Claim C4: every entity upsert of `create_entities_in_neo4j` is a
create-if-absent-else-overwrite keyed on the natural key (`name` for
Character/Location/Theme/Tag, `title` for Scene/PlotPoint), so feeding the
identical entity set through the function twice leaves the graph exactly as
after the first pass — no duplicate node is ever created for the same key.
Stated for a store whose node property maps are canonical (`GraphWF`). -/
theorem c4_entity_upsert_idempotent (g : Graph) (e : Entities) (t : Int)
    (hwf : GraphWF g) :
    createEntitiesInNeo4j (createEntitiesInNeo4j g e false t).1 e false t
      = createEntitiesInNeo4j g e false t := by
  unfold createEntitiesInNeo4j
  have h := runUps_idem (buildUps e false t).1 g
    (buildUps_keyProtected e false t) (buildUps_writesNoKeys e false t) hwf
  simp only [Prod.mk.injEq]
  exact ⟨h, trivial⟩

/-- Witness for C4 at a concrete store and entity set: ingesting the
character "Alice Chen" twice from the empty graph changes nothing on the
second pass. -/
theorem c4_entity_upsert_idempotent_witness :
    GraphWF ⟨[], []⟩ ∧
    createEntitiesInNeo4j (createEntitiesInNeo4j ⟨[], []⟩
        [("characters", [[("name", Val.str "Alice Chen")]])] false 0).1
      [("characters", [[("name", Val.str "Alice Chen")]])] false 0
      = createEntitiesInNeo4j ⟨[], []⟩
        [("characters", [[("name", Val.str "Alice Chen")]])] false 0 :=
  ⟨fun n hn => absurd hn (List.not_mem_nil n),
   c4_entity_upsert_idempotent ⟨[], []⟩
     [("characters", [[("name", Val.str "Alice Chen")]])] 0
     (fun n hn => absurd hn (List.not_mem_nil n))⟩

/-- Claim C5: `parse_tags` classifies `@power:hardening @character:Soren`
into exactly one Character record (name "Soren") and one generic Tag record
(category "power", value "hardening"); in general a match whose category
lowercases to character/location/scene/theme/story synthesizes an entity of
that type, and every other match synthesizes a generic Tag record, never the
reverse. -/
theorem c5_parse_tags_classification (text : String) :
    (parseTags text
      = [("characters", specCharacters (findTagMatches text.data)),
         ("locations", specLocations (findTagMatches text.data)),
         ("scenes", specScenes (findTagMatches text.data)),
         ("themes", specThemes (findTagMatches text.data)),
         ("stories", specStories (findTagMatches text.data)),
         ("tags", specPlainTags (findTagMatches text.data))]) ∧
    findTagMatches "@power:hardening @character:Soren".data
      = [("power", "hardening"), ("character", "Soren")] ∧
    parseTags "@power:hardening @character:Soren"
      = [("characters", [tagCharRec "character" "Soren"]),
         ("locations", []), ("scenes", []), ("themes", []), ("stories", []),
         ("tags", [tagTagRec "power" "hardening"])] ∧
    tagTagRec "power" "hardening"
      = [("category", Val.str "power"), ("value", Val.str "hardening"),
         ("name", Val.str "Power: Hardening"),
         ("description", Val.str "Tagged as @power:hardening")] ∧
    tagCharRec "character" "Soren"
      = [("name", Val.str "Soren"),
         ("description", Val.str "Character mentioned via @character:Soren"),
         ("role", Val.str "unknown")] :=
  ⟨parseTags_eq text, by rfl, by rfl, rfl, rfl⟩

/-! ## Oracle extraction (`extract_entities_and_relationships`,
`src/text_ingestion.py` lines 160-266) -/

/-- The structured result: `{"entities": ..., "relationships": [...]}`. -/
structure ExtractResult where
  entities : Entities
  relationships : List Rec
deriving DecidableEq, Repr

/-- `{"entities": {}, "relationships": []}`. -/
def emptyExtract : ExtractResult := ⟨[], []⟩

/-- Index of the first occurrence of a character. -/
def fstIdxOf (c : Char) : List Char → Option Nat
  | [] => none
  | x :: xs => if x = c then some 0 else (fstIdxOf c xs).map (· + 1)

/-- Index of the last occurrence of a character. -/
def lastIdxOf (c : Char) (cs : List Char) : Option Nat :=
  (fstIdxOf c cs.reverse).map (fun k => cs.length - 1 - k)

/-- `re.search(r'\{.*\}', content, re.DOTALL)`: the match exists exactly when
some `{` precedes some `}`; it spans from the first such `{` to the last `}`
(leftmost start, greedy dot). -/
def jsonSlice (s : String) : Option String :=
  match fstIdxOf '{' s.data, lastIdxOf '}' s.data with
  | some i, some j =>
    if i < j then some (String.mk ((s.data.drop i).take (j - i + 1))) else none
  | _, _ => none

/-- `extract_entities_and_relationships`: the oracle call outcome is the
parameter `oracleResp` (`Except.error` = the API call raised) and JSON
decoding is the parameter `parseJson` (modelling `json.loads` plus the
payload shape; `none` = decoding raised).  Every failure is caught inside
the function and turned into the empty result. -/
def extractEntitiesAndRelationships (parseJson : String → Option ExtractResult)
    (oracleResp : Except Unit String) : ExtractResult :=
  match oracleResp with
  | Except.error _ => emptyExtract
  | Except.ok content =>
    match jsonSlice content with
    | none => emptyExtract
    | some js =>
      match parseJson js with
      | none => emptyExtract
      | some r => r

/-- Claim C7: `extract_entities_and_relationships` returns exactly
`{"entities": {}, "relationships": []}` and does not raise whenever the
oracle call fails, the raw response contains no JSON object substring, or
the JSON decoding fails; no failure propagates (the embedding is a total
function whose every failure branch yields the empty result). -/
theorem c7_extract_fails_soft (parseJson : String → Option ExtractResult)
    (resp : Except Unit String) :
    (∀ e, resp = Except.error e →
      extractEntitiesAndRelationships parseJson resp = emptyExtract) ∧
    (∀ c, resp = Except.ok c → jsonSlice c = none →
      extractEntitiesAndRelationships parseJson resp = emptyExtract) ∧
    (∀ c js, resp = Except.ok c → jsonSlice c = some js → parseJson js = none →
      extractEntitiesAndRelationships parseJson resp = emptyExtract) ∧
    emptyExtract = ⟨[], []⟩ := by
  refine ⟨?_, ?_, ?_, rfl⟩
  · intro e he
    rw [he]
    rfl
  · intro c hc hj
    rw [hc]
    show (match jsonSlice c with
      | none => emptyExtract
      | some js =>
        match parseJson js with
        | none => emptyExtract
        | some r => r) = emptyExtract
    rw [hj]
  · intro c js hc hj hp
    rw [hc]
    show (match jsonSlice c with
      | none => emptyExtract
      | some js2 =>
        match parseJson js2 with
        | none => emptyExtract
        | some r => r) = emptyExtract
    rw [hj]
    show (match parseJson js with
      | none => emptyExtract
      | some r => r) = emptyExtract
    rw [hp]

/-- Witness for C7: a response with no braces yields the empty result. -/
theorem c7_extract_fails_soft_witness :
    jsonSlice "no json object here" = none ∧
    extractEntitiesAndRelationships (fun _ => none) (Except.ok "no json object here")
      = emptyExtract :=
  ⟨rfl, (c7_extract_fails_soft (fun _ => none)
    (Except.ok "no json object here")).2.1 "no json object here" rfl rfl⟩

/-! ## The inline-tag / oracle merge (`ingest_text_file` lines 461-494,
`ingest_text_content` lines 532-565) -/

/-- `e.get(k, "").lower()` as the dedup key reads it; a stored non-string
value raises `AttributeError` (`none`). -/
def strLowerOf (r : Rec) (k : String) : Option String :=
  match recGet? r k with
  | none => some ""
  | some (Val.str s) => some (pyLower s)
  | some _ => none

/-- The dedup identifier per bucket: `name` for characters/locations/themes
and tags, `title` for scenes/stories; any other bucket keeps the initialized
empty identifier. -/
def dedupKey (btype : String) (r : Rec) : Option String :=
  if btype = "characters" ∨ btype = "locations" ∨ btype = "themes" then
    strLowerOf r "name"
  else if btype = "scenes" ∨ btype = "stories" then strLowerOf r "title"
  else if btype = "tags" then strLowerOf r "name"
  else some ""

/-- `existing_names`: the dedup keys of the oracle-supplied records
(evaluated up front; `none` = raise). -/
def keysOf (btype : String) : List Rec → Option (List String)
  | [] => some []
  | r :: rs =>
    match dedupKey btype r with
    | none => none
    | some k =>
      match keysOf btype rs with
      | none => none
      | some ks => some (k :: ks)

/-- The append loop: an inline record is appended exactly when its identifier
is nonempty and not yet seen; its key is then recorded. -/
def mergeLoop (btype : String) : List Rec → List Rec → List String → Option (List Rec)
  | acc, [], _ => some acc
  | acc, r :: rs, names =>
    match dedupKey btype r with
    | none => none
    | some k =>
      if k ≠ "" ∧ k ∉ names then mergeLoop btype (acc ++ [r]) rs (k :: names)
      else mergeLoop btype acc rs names

/-- Merge one bucket of inline records into the oracle's list. -/
def mergeBucket (btype : String) (existing inline : List Rec) : Option (List Rec) :=
  match keysOf btype existing with
  | none => none
  | some names0 => mergeLoop btype existing inline names0

/-- The per-bucket merge sweep over the parsed dictionary (empty buckets are
skipped untouched). -/
def mergeGo : Entities → List (String × List Rec) → Option Entities
  | acc, [] => some acc
  | acc, (btype, inline) :: rest =>
    if inline.isEmpty then mergeGo acc rest
    else
      match mergeBucket btype (dictGet acc btype) inline with
      | none => none
      | some merged => mergeGo (dictSet acc btype merged) rest

/-- Merge the `parse_tags` output into the oracle's entity dictionary. -/
def mergeEntities (extracted : Entities) (parsed : Entities) : Option Entities :=
  mergeGo extracted parsed

/-- Records of a list whose dedup key is `k`. -/
def recsWithKey (btype k : String) (rs : List Rec) : List Rec :=
  rs.filter (fun r => decide (dedupKey btype r = some k))

theorem recsWithKey_nil (btype k : String) : recsWithKey btype k [] = [] := rfl

theorem recsWithKey_cons (btype k : String) (r : Rec) (rs : List Rec) :
    recsWithKey btype k (r :: rs)
      = if dedupKey btype r = some k then r :: recsWithKey btype k rs
        else recsWithKey btype k rs := by
  unfold recsWithKey
  rw [List.filter_cons]
  by_cases h : dedupKey btype r = some k <;> simp [h]

/-- What the append loop does: the oracle list is kept as a prefix, and of
the inline records exactly the first one per fresh nonempty key is
appended. -/
theorem mergeLoop_char (btype : String) (rs : List Rec) :
    ∀ acc names merged, mergeLoop btype acc rs names = some merged →
    ∃ app, merged = acc ++ app ∧ app.Sublist rs ∧
      (∀ k, k ∈ names ∨ k = "" → recsWithKey btype k app = []) ∧
      (∀ k, k ∉ names → k ≠ "" →
        recsWithKey btype k app = (recsWithKey btype k rs).take 1) := by
  induction rs with
  | nil =>
    intro acc names merged hm
    have hacc : acc = merged := Option.some.inj hm
    refine ⟨[], by simp [hacc], List.Sublist.refl [], ?_, ?_⟩
    · intro k hk
      rfl
    · intro k h1 h2
      rfl
  | cons r rs ih =>
    intro acc names merged hm
    cases hk : dedupKey btype r with
    | none =>
      have hm2 : (none : Option (List Rec)) = some merged := by
        rw [show mergeLoop btype acc (r :: rs) names
            = match dedupKey btype r with
              | none => none
              | some k =>
                if k ≠ "" ∧ k ∉ names then mergeLoop btype (acc ++ [r]) rs (k :: names)
                else mergeLoop btype acc rs names from rfl, hk] at hm
        exact hm
      cases hm2
    | some k0 =>
      have hm2 : (if k0 ≠ "" ∧ k0 ∉ names then mergeLoop btype (acc ++ [r]) rs (k0 :: names)
          else mergeLoop btype acc rs names) = some merged := by
        rw [show mergeLoop btype acc (r :: rs) names
            = match dedupKey btype r with
              | none => none
              | some k =>
                if k ≠ "" ∧ k ∉ names then mergeLoop btype (acc ++ [r]) rs (k :: names)
                else mergeLoop btype acc rs names from rfl, hk] at hm
        exact hm
      by_cases hc : k0 ≠ "" ∧ k0 ∉ names
      · rw [if_pos hc] at hm2
        obtain ⟨app', happ', hsub', hin', hfresh'⟩ := ih (acc ++ [r]) (k0 :: names) merged hm2
        refine ⟨r :: app', ?_, List.Sublist.cons₂ r hsub', ?_, ?_⟩
        · rw [happ']
          simp
        · intro k hkm
          have hk0k : ¬ k0 = k := by
            intro he
            subst he
            rcases hkm with h | h
            · exact hc.2 h
            · exact hc.1 h
          rw [recsWithKey_cons, hk, if_neg (by simpa using hk0k)]
          have hkm2 : k ∈ k0 :: names ∨ k = "" := by
            rcases hkm with h | h
            · exact Or.inl (List.mem_cons_of_mem _ h)
            · exact Or.inr h
          exact hin' k hkm2
        · intro k hknm hkne
          by_cases hk0k : k0 = k
          · subst hk0k
            rw [recsWithKey_cons, hk, if_pos rfl]
            rw [recsWithKey_cons, hk, if_pos rfl]
            rw [hin' k0 (Or.inl (List.mem_cons_self _ _))]
            rfl
          · rw [recsWithKey_cons, hk, if_neg (by simpa using hk0k)]
            rw [recsWithKey_cons, hk, if_neg (by simpa using hk0k)]
            have hknm2 : k ∉ k0 :: names := by
              intro hmem
              rcases List.mem_cons.mp hmem with h | h
              · exact hk0k h.symm
              · exact hknm h
            exact hfresh' k hknm2 hkne
      · rw [if_neg hc] at hm2
        obtain ⟨app', happ', hsub', hin', hfresh'⟩ := ih acc names merged hm2
        have hskip : k0 = "" ∨ k0 ∈ names := by
          by_contra hcon
          push_neg at hcon
          exact hc ⟨hcon.1, hcon.2⟩
        refine ⟨app', happ', List.Sublist.cons r hsub', hin', ?_⟩
        intro k hknm hkne
        have hk0k : ¬ k0 = k := by
          intro he
          subst he
          rcases hskip with h | h
          · exact hkne h
          · exact hknm h
        rw [recsWithKey_cons, hk, if_neg (by simpa using hk0k)]
        exact hfresh' k hknm hkne

/-- Claim C3 (amended): merging the inline-tag records into the oracle's
bucket keeps the oracle-supplied records exactly (as a prefix), drops every
inline record whose case-insensitive natural key already occurs among the
oracle's keys, and appends, per key absent from the oracle's list, exactly
the first inline record carrying it (later inline records with the same key
are dropped too); in the "Alice"/`@character:Alice` case the merged
characters list is exactly the single oracle record. -/
theorem c3_merge_dedup_amended (btype : String) (existing inline merged : List Rec)
    (oracleKeys : List String)
    (hk : keysOf btype existing = some oracleKeys)
    (hm : mergeBucket btype existing inline = some merged) :
    (∃ app, merged = existing ++ app ∧ app.Sublist inline ∧
      (∀ k, k ∈ oracleKeys ∨ k = "" → recsWithKey btype k app = []) ∧
      (∀ k, k ∉ oracleKeys → k ≠ "" →
        recsWithKey btype k app = (recsWithKey btype k inline).take 1)) ∧
    mergeEntities [("characters", [[("name", Val.str "Alice")]])]
        (parseTags "@character:Alice")
      = some [("characters", [[("name", Val.str "Alice")]])] := by
  constructor
  · unfold mergeBucket at hm
    rw [hk] at hm
    exact mergeLoop_char btype inline existing oracleKeys merged hm
  · rfl

/-- Witness for C3 (amended) at the claim's own example. -/
theorem c3_merge_dedup_amended_witness :
    keysOf "characters" [[("name", Val.str "Alice")]] = some ["alice"] ∧
    mergeBucket "characters" [[("name", Val.str "Alice")]]
        [tagCharRec "character" "Alice"] = some [[("name", Val.str "Alice")]] ∧
    ((∃ app, [[("name", Val.str "Alice")]]
        = [[("name", Val.str "Alice")]] ++ app ∧
      app.Sublist [tagCharRec "character" "Alice"] ∧
      (∀ k, k ∈ ["alice"] ∨ k = "" → recsWithKey "characters" k app = []) ∧
      (∀ k, k ∉ ["alice"] → k ≠ "" →
        recsWithKey "characters" k app
          = (recsWithKey "characters" k [tagCharRec "character" "Alice"]).take 1)) ∧
     mergeEntities [("characters", [[("name", Val.str "Alice")]])]
        (parseTags "@character:Alice")
      = some [("characters", [[("name", Val.str "Alice")]])]) :=
  ⟨rfl, rfl,
   c3_merge_dedup_amended "characters" [[("name", Val.str "Alice")]]
     [tagCharRec "character" "Alice"] [[("name", Val.str "Alice")]] ["alice"] rfl rfl⟩

/-- Counterexample for C3 as stated: with an empty oracle bucket and inline
text `@character:BOB @character:Bob`, the second inline record's key "bob"
is absent from the oracle's (empty) key list, yet the record is not appended
— only the first inline record per key survives. -/
theorem c3_counterexample :
    mergeEntities [] (parseTags "@character:BOB @character:Bob")
      = some [("characters", [tagCharRec "character" "BOB"])] ∧
    keysOf "characters" ([] : List Rec) = some [] ∧
    dedupKey "characters" (tagCharRec "character" "Bob") = some "bob" ∧
    tagCharRec "character" "Bob" ∉
      dictGet [("characters", [tagCharRec "character" "BOB"])] "characters" := by
  refine ⟨rfl, rfl, rfl, ?_⟩
  decide

/-! ## Relationship creation (`create_relationships_in_neo4j`,
`src/text_ingestion.py` lines 415-434) -/

/-- Cypher `=` under null semantics: a comparison with null is never true. -/
def cypherEq (a b : Val) : Bool :=
  match a, b with
  | Val.null, _ => false
  | _, Val.null => false
  | a, b => decide (a = b)

/-- `n.key = $param`: false when the property is absent (null). -/
def propEq (ps : Props) (k : String) (v : Val) : Bool :=
  match lookupKey ps k with
  | none => false
  | some w => cypherEq w v

/-- The `WHERE` clause of the relationship query as openCypher parses it:
`AND` binds tighter than `OR` and the source parenthesizes only the second
disjunction, so the clause reads
`a.name = $from OR (a.title = $from AND (b.name = $to OR b.title = $to))`. -/
def relWhere (fromV toV : Val) (a b : Node) : Bool :=
  propEq a.props "name" fromV ||
  (propEq a.props "title" fromV &&
    (propEq b.props "name" toV || propEq b.props "title" toV))

/-- `MERGE (a)-[r:typ]->(b)` then `SET r.description = $description` for one
matched row. -/
def mergeEdge (g : Graph) (typ : String) (aid bid : Nat) (descV : Val) : Graph :=
  if g.edges.any (fun e =>
      decide (e.src = aid) && decide (e.typ = typ) && decide (e.dst = bid)) then
    { g with edges := g.edges.map (fun e =>
        if decide (e.src = aid) && decide (e.typ = typ) && decide (e.dst = bid) then
          { e with props := applySet e.props [("description", descV)] }
        else e) }
  else
    { g with edges := g.edges ++ [⟨aid, bid, typ, applySet [] [("description", descV)]⟩] }

/-- One relationship query: every `(a, b)` node pair satisfying the `WHERE`
clause (in store order) is merged as an edge. -/
def runRelQuery (g : Graph) (typ : String) (fromV toV descV : Val) : Graph :=
  (g.nodes.flatMap (fun a =>
    (g.nodes.filter (fun b => relWhere fromV toV a b)).map (fun b => (a.id, b.id)))).foldl
    (fun g2 p => mergeEdge g2 typ p.1 p.2 descV) g

/-- One iteration of the relationship loop.  `rel['type']` is interpolated
into the query text outside the per-relationship `try`, so a missing key
aborts the whole batch (`none`); a missing `from`/`to` key or a query
failure happens inside the `try` and is caught, leaving the store unchanged
and the loop continuing. -/
def relStep (g : Graph) (r : Rec) : Option Graph :=
  match recGet? r "type" with
  | none => none
  | some (Val.str typ) =>
    match recGet? r "from", recGet? r "to" with
    | some f, some t => some (runRelQuery g typ f t (recGetD r "description" (Val.str "")))
    | _, _ => some g
  | some _ => some g

/-- `create_relationships_in_neo4j`: the loop with abort-on-uncaught-error;
partial writes persist, the flag is false when the loop raised past the
per-relationship catch. -/
def createRelationshipsInNeo4j (g : Graph) : List Rec → Graph × Bool
  | [] => (g, true)
  | r :: rest =>
    match relStep g r with
    | none => (g, false)
    | some g2 => createRelationshipsInNeo4j g2 rest

/-- Claim C1 (code bug): on a store holding only Character nodes Alice and
Bob, the relationship `{"from": "Alice", "to": "Ghost", "type": "KNOWS"}` —
whose "to" label matches no node's name or title — does not make the query
match zero rows.  Because openCypher's `AND` binds tighter than the
unparenthesized `OR`, the Alice node alone satisfies the `WHERE` clause
paired with every node, and `MERGE` creates KNOWS edges Alice→Alice and
Alice→Bob.  (No node is created and nothing raises past the per-relationship
catch, and a missing "from" endpoint does no-op as the claim says.) -/
theorem c1_missing_to_endpoint_creates_edges :
    (∀ n ∈ (⟨[⟨1, "Character", [("name", Val.str "Alice")]⟩,
        ⟨2, "Character", [("name", Val.str "Bob")]⟩], []⟩ : Graph).nodes,
      propEq n.props "name" (Val.str "Ghost") = false ∧
      propEq n.props "title" (Val.str "Ghost") = false) ∧
    createRelationshipsInNeo4j
      ⟨[⟨1, "Character", [("name", Val.str "Alice")]⟩,
        ⟨2, "Character", [("name", Val.str "Bob")]⟩], []⟩
      [[("from", Val.str "Alice"), ("to", Val.str "Ghost"), ("type", Val.str "KNOWS")]]
      = (⟨[⟨1, "Character", [("name", Val.str "Alice")]⟩,
           ⟨2, "Character", [("name", Val.str "Bob")]⟩],
          [⟨1, 1, "KNOWS", [("description", Val.str "")]⟩,
           ⟨1, 2, "KNOWS", [("description", Val.str "")]⟩]⟩, true) ∧
    createRelationshipsInNeo4j
      ⟨[⟨1, "Character", [("name", Val.str "Alice")]⟩,
        ⟨2, "Character", [("name", Val.str "Bob")]⟩], []⟩
      [[("from", Val.str "Ghost"), ("to", Val.str "Alice"), ("type", Val.str "KNOWS")]]
      = (⟨[⟨1, "Character", [("name", Val.str "Alice")]⟩,
           ⟨2, "Character", [("name", Val.str "Bob")]⟩], []⟩, true) := by
  refine ⟨?_, rfl, rfl⟩
  decide

/-! ## Pipeline state, tracking helper, ingestion and re-ingestion
(`TextIngestionPipeline`, `src/text_ingestion.py` lines 32-89 and 436-514) -/

/-- The pipeline's mutable attributes (the two service clients live
outside the model). -/
structure PState where
  testing_mode : Bool
  track_sources : Bool
  current_source_file : Option String
deriving DecidableEq, Repr

/-- Python truthiness of `self.current_source_file` (`None` and the empty
string are falsy). -/
def pyTruthy (o : Option String) : Bool :=
  match o with
  | none => false
  | some s => decide (¬ s = "")

/-- The `_source_file` assignment fragment appended by
`_add_tracking_fields`. -/
def srcFragment : String := ",\n                        _source_file = $source_file"

/-- The test-marker assignment fragment appended by `_add_tracking_fields`. -/
def testFragment : String :=
  ",\n                        _test_marker = true,\n                        _test_timestamp = datetime()"

/-- `_add_tracking_fields` (lines 43-55). -/
def addTrackingFields (st : PState) (baseQuery : String) : String :=
  let q1 := if st.track_sources && pyTruthy st.current_source_file then
      baseQuery ++ srcFragment
    else baseQuery
  if st.testing_mode then q1 ++ testFragment else q1

/-- `ingest_text_file` (lines 436-514): set `current_source_file`, read the
file (`fileContent`; `none` = the read raised), parse inline tags, merge
them into the oracle extraction (`extracted` is what
`extract_entities_and_relationships` returned — it never raises, claim C7),
then persist entities and relationships.  Every exception inside is caught
and `none` is returned; writes made before the exception persist. -/
def ingestTextFile (st : PState) (g : Graph) (filePath : String)
    (fileContent : Option String) (extracted : ExtractResult) (now : Int) :
    PState × Graph × Option ExtractResult :=
  let st1 := { st with current_source_file := some filePath }
  match fileContent with
  | none => (st1, g, none)
  | some content =>
    match mergeEntities extracted.entities (parseTags content) with
    | none => (st1, g, none)
    | some ents =>
      let p1 := createEntitiesInNeo4j g ents st1.testing_mode now
      if p1.2 then
        let p2 := createRelationshipsInNeo4j p1.1 extracted.relationships
        (st1, p2.1, if p2.2 then some ⟨ents, extracted.relationships⟩ else none)
      else (st1, p1.1, none)

/-- Modelled from the spec: `cleanup_test_entities` is invoked on the graph
store by `reingest_file` but is not defined in the sources under `src/`.
Per the spec's re-ingestion contract it "sweep-delete[s] all test-marked
nodes", and a trial ingestion's nodes are "fully removable by filtering on
the test marker"; deleting a node detaches its incident edges. -/
def cleanupTestEntities (g : Graph) : Graph :=
  let keep := g.nodes.filter (fun n => decide (lookupKey n.props "_test_marker" = none))
  ⟨keep, g.edges.filter (fun e =>
    keep.any (fun n => decide (n.id = e.src)) && keep.any (fun n => decide (n.id = e.dst)))⟩

/-- `reingest_file` (lines 64-89): trial ingestion in test mode, cleanup
sweep, normal re-ingestion, with `testing_mode` restored by the `finally` on
every exit path.  `ingest_text_file` traps all of its own exceptions, so
only the cleanup call can raise (`cleanupFails`); then the exception
propagates after the `finally` restores the flag (the failed sweep's partial
effect is not modelled: the graph is returned as before the sweep). -/
def reingestFile (st : PState) (g : Graph) (filePath : String)
    (fileContent : Option String) (extract1 extract2 : ExtractResult)
    (cleanupFails : Bool) (now1 now2 : Int) :
    PState × Graph × Option (Option ExtractResult) :=
  let old := st.testing_mode
  let stT := { st with testing_mode := true }
  let r1 := ingestTextFile stT g filePath fileContent extract1 now1
  if cleanupFails then
    ({ r1.1 with testing_mode := old }, r1.2.1, none)
  else
    let g2 := cleanupTestEntities r1.2.1
    let st3 := { r1.1 with testing_mode := false }
    let r2 := ingestTextFile st3 g2 filePath fileContent extract2 now2
    ({ r2.1 with testing_mode := old }, r2.2.1, some r2.2.2)

theorem mergeEdge_nodes (g : Graph) (typ : String) (aid bid : Nat) (d : Val) :
    (mergeEdge g typ aid bid d).nodes = g.nodes := by
  unfold mergeEdge
  by_cases h : g.edges.any (fun e =>
      decide (e.src = aid) && decide (e.typ = typ) && decide (e.dst = bid)) <;> simp [h]

theorem runRelQuery_nodes (g : Graph) (typ : String) (f t d : Val) :
    (runRelQuery g typ f t d).nodes = g.nodes := by
  unfold runRelQuery
  generalize (g.nodes.flatMap (fun a =>
    (g.nodes.filter (fun b => relWhere f t a b)).map (fun b => (a.id, b.id)))) = ps
  induction ps generalizing g with
  | nil => rfl
  | cons p ps ih =>
    show (ps.foldl (fun g2 q => mergeEdge g2 typ q.1 q.2 d) (mergeEdge g typ p.1 p.2 d)).nodes
      = g.nodes
    rw [ih (mergeEdge g typ p.1 p.2 d), mergeEdge_nodes]

theorem createRels_nodes (rels : List Rec) (g : Graph) :
    (createRelationshipsInNeo4j g rels).1.nodes = g.nodes := by
  induction rels generalizing g with
  | nil => rfl
  | cons r rest ih =>
    show (match relStep g r with
      | none => (g, false)
      | some g2 => createRelationshipsInNeo4j g2 rest).1.nodes = g.nodes
    cases hs : relStep g r with
    | none => rfl
    | some g2 =>
      have hg2 : g2.nodes = g.nodes := by
        unfold relStep at hs
        cases ht : recGet? r "type" with
        | none => rw [ht] at hs; cases hs
        | some tv =>
          rw [ht] at hs
          cases tv with
          | str typ =>
            cases hf : recGet? r "from" with
            | none =>
              simp only [hf] at hs
              cases hs
              rfl
            | some fv =>
              cases h2 : recGet? r "to" with
              | none =>
                simp only [hf, h2] at hs
                cases hs
                rfl
              | some t2v =>
                simp only [hf, h2] at hs
                cases hs
                exact runRelQuery_nodes g typ fv t2v _
          | null => cases hs; rfl
          | num n => cases hs; rfl
          | boolean b => cases hs; rfl
          | strList l => cases hs; rfl
      rw [ih g2, hg2]

/-- Test-mode stamping: after the run, every node is either an untouched
pre-existing node or carries `_test_marker = true`. -/
theorem runUps_stamp (us : List Ups) (g : Graph)
    (hst : ∀ u ∈ us, netWrite u.sets "_test_marker" = some (Val.boolean true)) :
    ∀ n ∈ (runUps g us).nodes,
      n ∈ g.nodes ∨ lookupKey n.props "_test_marker" = some (Val.boolean true) := by
  induction us generalizing g with
  | nil => intro n hn; exact Or.inl hn
  | cons u rest ih =>
    intro n hn
    have hstr : ∀ v ∈ rest, netWrite v.sets "_test_marker" = some (Val.boolean true) :=
      fun v hv => hst v (List.mem_cons_of_mem _ hv)
    have hstep := ih (mergeNode g u) hstr n hn
    rcases hstep with hmem | hmark
    · unfold mergeNode at hmem
      by_cases ha : g.nodes.any (nodeMatches u)
      · rw [if_pos ha] at hmem
        rcases List.mem_map.mp hmem with ⟨m, hm, he⟩
        unfold updNode at he
        by_cases hmatch : nodeMatches u m
        · right
          rw [← he]
          rw [if_pos hmatch]
          rw [show ({ m with props := applySet m.props u.sets } : Node).props
            = applySet m.props u.sets from rfl]
          rw [lookupKey_applySet, hst u (List.mem_cons_self _ _)]
          rfl
        · left
          rw [← he, if_neg hmatch]
          exact hm
      · rw [if_neg ha] at hmem
        rcases List.mem_append.mp hmem with hm | hm
        · exact Or.inl hm
        · right
          rcases List.mem_singleton.mp hm with he
          rw [he]
          rw [show (⟨freshId g, u.label, applySet [(u.keyProp, u.keyVal)] u.sets⟩ :
            Node).props = applySet [(u.keyProp, u.keyVal)] u.sets from rfl]
          rw [lookupKey_applySet, hst u (List.mem_cons_self _ _)]
          rfl
    · exact Or.inr hmark

/-- A property that no statement writes and that is no statement's merge key
never appears on any node. -/
theorem runUps_key_invariant (us : List Ups) (g : Graph) (k : String)
    (hnm : ∀ u ∈ us, netWrite u.sets k = none ∧ ¬ u.keyProp = k)
    (hg : ∀ n ∈ g.nodes, lookupKey n.props k = none) :
    ∀ n ∈ (runUps g us).nodes, lookupKey n.props k = none := by
  induction us generalizing g with
  | nil => exact hg
  | cons u rest ih =>
    have hnmr : ∀ v ∈ rest, netWrite v.sets k = none ∧ ¬ v.keyProp = k :=
      fun v hv => hnm v (List.mem_cons_of_mem _ hv)
    apply ih (mergeNode g u) hnmr
    intro n hn
    unfold mergeNode at hn
    by_cases ha : g.nodes.any (nodeMatches u)
    · rw [if_pos ha] at hn
      rcases List.mem_map.mp hn with ⟨m, hm, he⟩
      rw [← he]
      unfold updNode
      by_cases hmatch : nodeMatches u m
      · rw [if_pos hmatch]
        rw [show ({ m with props := applySet m.props u.sets } : Node).props
          = applySet m.props u.sets from rfl]
        rw [lookupKey_applySet, (hnm u (List.mem_cons_self _ _)).1]
        exact hg m hm
      · rw [if_neg hmatch]
        exact hg m hm
    · rw [if_neg ha] at hn
      rcases List.mem_append.mp hn with hm | hm
      · exact hg n hm
      · rcases List.mem_singleton.mp hm with he
        rw [he]
        rw [show (⟨freshId g, u.label, applySet [(u.keyProp, u.keyVal)] u.sets⟩ :
          Node).props = applySet [(u.keyProp, u.keyVal)] u.sets from rfl]
        rw [lookupKey_applySet, (hnm u (List.mem_cons_self _ _)).1]
        rw [show lookupKey [(u.keyProp, u.keyVal)] k = none from by
          rw [lookupKey_cons, if_neg (hnm u (List.mem_cons_self _ _)).2]
          rfl]
        rfl

/-- In test mode every generated `SET` clause stamps the test marker. -/
theorem buildUps_stamp (e : Entities) (t : Int) :
    ∀ u ∈ (buildUps e true t).1,
      netWrite u.sets "_test_marker" = some (Val.boolean true) := by
  intro u hu
  unfold buildUps at hu
  rcases seqB_mem _ _ _ hu with h | h
  · rcases (buildBucket_mem _ _ _ _ _ h).2.2 with ⟨r, hr⟩
    rw [hr]; rfl
  rcases seqB_mem _ _ _ h with h | h
  · rcases (buildBucket_mem _ _ _ _ _ h).2.2 with ⟨r, hr⟩
    rw [hr]; rfl
  rcases seqB_mem _ _ _ h with h | h
  · rcases (buildBucket_mem _ _ _ _ _ h).2.2 with ⟨r, hr⟩
    rw [hr]; rfl
  rcases seqB_mem _ _ _ h with h | h
  · rcases (buildBucket_mem _ _ _ _ _ h).2.2 with ⟨r, hr⟩
    rw [hr]; rfl
  rcases seqB_mem _ _ _ h with h | h
  · rcases (buildBucket_mem _ _ _ _ _ h).2.2 with ⟨r, hr⟩
    rw [hr]; rfl
  · rcases (buildBucket_mem _ _ _ _ _ h).2.2 with ⟨r, hr⟩
    rw [hr]; rfl

/-- In normal mode no generated `SET` clause touches the test marker, and the
merge keys are `name`/`title`. -/
theorem buildUps_no_marker (e : Entities) (t : Int) :
    ∀ u ∈ (buildUps e false t).1,
      netWrite u.sets "_test_marker" = none ∧ ¬ u.keyProp = "_test_marker" := by
  intro u hu
  have hkp := buildUps_keyProtected e false t u hu
  have hne : ¬ u.keyProp = "_test_marker" := by
    rcases hkp with h | h <;> rw [h] <;> decide
  refine ⟨?_, hne⟩
  unfold buildUps at hu
  rcases seqB_mem _ _ _ hu with h | h
  · rcases (buildBucket_mem _ _ _ _ _ h).2.2 with ⟨r, hr⟩
    rw [hr]; rfl
  rcases seqB_mem _ _ _ h with h | h
  · rcases (buildBucket_mem _ _ _ _ _ h).2.2 with ⟨r, hr⟩
    rw [hr]; rfl
  rcases seqB_mem _ _ _ h with h | h
  · rcases (buildBucket_mem _ _ _ _ _ h).2.2 with ⟨r, hr⟩
    rw [hr]; rfl
  rcases seqB_mem _ _ _ h with h | h
  · rcases (buildBucket_mem _ _ _ _ _ h).2.2 with ⟨r, hr⟩
    rw [hr]; rfl
  rcases seqB_mem _ _ _ h with h | h
  · rcases (buildBucket_mem _ _ _ _ _ h).2.2 with ⟨r, hr⟩
    rw [hr]; rfl
  · rcases (buildBucket_mem _ _ _ _ _ h).2.2 with ⟨r, hr⟩
    rw [hr]; rfl

/-- No generated `SET` clause ever writes `_source_file`, in either mode. -/
theorem buildUps_no_source (e : Entities) (testing : Bool) (t : Int) :
    ∀ u ∈ (buildUps e testing t).1,
      netWrite u.sets "_source_file" = none ∧ ¬ u.keyProp = "_source_file" := by
  intro u hu
  have hkp := buildUps_keyProtected e testing t u hu
  have hne : ¬ u.keyProp = "_source_file" := by
    rcases hkp with h | h <;> rw [h] <;> decide
  refine ⟨?_, hne⟩
  unfold buildUps at hu
  rcases seqB_mem _ _ _ hu with h | h
  · rcases (buildBucket_mem _ _ _ _ _ h).2.2 with ⟨r, hr⟩
    rw [hr]; cases testing <;> rfl
  rcases seqB_mem _ _ _ h with h | h
  · rcases (buildBucket_mem _ _ _ _ _ h).2.2 with ⟨r, hr⟩
    rw [hr]; cases testing <;> rfl
  rcases seqB_mem _ _ _ h with h | h
  · rcases (buildBucket_mem _ _ _ _ _ h).2.2 with ⟨r, hr⟩
    rw [hr]; cases testing <;> rfl
  rcases seqB_mem _ _ _ h with h | h
  · rcases (buildBucket_mem _ _ _ _ _ h).2.2 with ⟨r, hr⟩
    rw [hr]; cases testing <;> rfl
  rcases seqB_mem _ _ _ h with h | h
  · rcases (buildBucket_mem _ _ _ _ _ h).2.2 with ⟨r, hr⟩
    rw [hr]; cases testing <;> rfl
  · rcases (buildBucket_mem _ _ _ _ _ h).2.2 with ⟨r, hr⟩
    rw [hr]; cases testing <;> rfl

/-- The graph after `ingest_text_file` is either untouched (read/merge
raised) or the entity-creation result followed by edge-only relationship
writes. -/
theorem ingestTextFile_graph_cases (st : PState) (g : Graph) (fp : String)
    (fc : Option String) (ex : ExtractResult) (now : Int) :
    (ingestTextFile st g fp fc ex now).2.1 = g ∨
    ∃ content ents, fc = some content ∧
      mergeEntities ex.entities (parseTags content) = some ents ∧
      (ingestTextFile st g fp fc ex now).2.1.nodes
        = (createEntitiesInNeo4j g ents st.testing_mode now).1.nodes := by
  unfold ingestTextFile
  cases fc with
  | none => exact Or.inl rfl
  | some content =>
    dsimp only
    cases hm : mergeEntities ex.entities (parseTags content) with
    | none => exact Or.inl rfl
    | some ents =>
      right
      refine ⟨content, ents, rfl, hm, ?_⟩
      dsimp only
      split
      · exact createRels_nodes _ _
      · rfl

/-- The pipeline state after `ingest_text_file`: only `current_source_file`
is (re)assigned. -/
theorem ingestTextFile_state (st : PState) (g : Graph) (fp : String)
    (fc : Option String) (ex : ExtractResult) (now : Int) :
    (ingestTextFile st g fp fc ex now).1 = { st with current_source_file := some fp } := by
  unfold ingestTextFile
  cases fc with
  | none => rfl
  | some content =>
    dsimp only
    cases mergeEntities ex.entities (parseTags content) with
    | none => rfl
    | some ents =>
      dsimp only
      split <;> rfl

/-- A test-mode ingestion stamps the marker on every node it touches or
creates. -/
theorem ingestTextFile_stamp (st : PState) (g : Graph) (fp : String)
    (fc : Option String) (ex : ExtractResult) (now : Int)
    (hst : st.testing_mode = true) :
    ∀ n ∈ (ingestTextFile st g fp fc ex now).2.1.nodes,
      n ∈ g.nodes ∨ lookupKey n.props "_test_marker" = some (Val.boolean true) := by
  rcases ingestTextFile_graph_cases st g fp fc ex now with h | ⟨c, ents, hfc, hm, hnodes⟩
  · intro n hn
    rw [h] at hn
    exact Or.inl hn
  · intro n hn
    rw [hnodes, hst] at hn
    exact runUps_stamp _ g (buildUps_stamp ents now) n hn

/-- A normal-mode ingestion on a marker-free store leaves the store
marker-free. -/
theorem ingestTextFile_no_marker (st : PState) (g : Graph) (fp : String)
    (fc : Option String) (ex : ExtractResult) (now : Int)
    (hst : st.testing_mode = false)
    (hg : ∀ n ∈ g.nodes, lookupKey n.props "_test_marker" = none) :
    ∀ n ∈ (ingestTextFile st g fp fc ex now).2.1.nodes,
      lookupKey n.props "_test_marker" = none := by
  rcases ingestTextFile_graph_cases st g fp fc ex now with h | ⟨c, ents, hfc, hm, hnodes⟩
  · intro n hn
    rw [h] at hn
    exact hg n hn
  · intro n hn
    rw [hnodes, hst] at hn
    exact runUps_key_invariant _ g "_test_marker" (buildUps_no_marker ents now) hg n hn

/-- The cleanup sweep leaves only marker-free nodes. -/
theorem cleanup_no_marker (g : Graph) :
    ∀ n ∈ (cleanupTestEntities g).nodes, lookupKey n.props "_test_marker" = none := by
  intro n hn
  have hn2 : n ∈ g.nodes.filter
      (fun n => decide (lookupKey n.props "_test_marker" = none)) := hn
  exact of_decide_eq_true (List.mem_filter.mp hn2).2

/-- Claim C2: `reingest_file` is the trial-then-commit sequence — a first
ingestion with the test marker stamped on every node it creates or touches,
then the sweep deleting all test-marked nodes, then a second ingestion in
normal mode — and after it returns no test-marked node remains in the store
at all (in particular none from the trial pass is findable).  The sweep
itself is modelled from the spec (`cleanup_test_entities` is not in the
sources under `src/`). -/
theorem c2_reingest_trial_cleanup_commit (st : PState) (g : Graph) (fp : String)
    (fc : Option String) (e1 e2 : ExtractResult) (n1 n2 : Int) :
    (∀ n ∈ (ingestTextFile { st with testing_mode := true } g fp fc e1 n1).2.1.nodes,
      n ∈ g.nodes ∨ lookupKey n.props "_test_marker" = some (Val.boolean true)) ∧
    (reingestFile st g fp fc e1 e2 false n1 n2).2.1
      = (ingestTextFile
          { (ingestTextFile { st with testing_mode := true } g fp fc e1 n1).1 with
            testing_mode := false }
          (cleanupTestEntities
            (ingestTextFile { st with testing_mode := true } g fp fc e1 n1).2.1)
          fp fc e2 n2).2.1 ∧
    (∀ n ∈ (reingestFile st g fp fc e1 e2 false n1 n2).2.1.nodes,
      lookupKey n.props "_test_marker" = none) := by
  refine ⟨ingestTextFile_stamp _ _ _ _ _ _ rfl, rfl, ?_⟩
  have hclean := cleanup_no_marker
    (ingestTextFile { st with testing_mode := true } g fp fc e1 n1).2.1
  have hfinal := ingestTextFile_no_marker
    { (ingestTextFile { st with testing_mode := true } g fp fc e1 n1).1 with
      testing_mode := false }
    (cleanupTestEntities (ingestTextFile { st with testing_mode := true } g fp fc e1 n1).2.1)
    fp fc e2 n2 rfl hclean
  intro n hn
  exact hfinal n hn

/-- Claim C10 (amended): `reingest_file` restores `testing_mode` to its
pre-call value on every exit path, including when the cleanup sweep raises;
`track_sources` is unchanged; but `current_source_file` is left assigned to
the ingested file path (the trial ingestion sets it and nothing restores
it). -/
theorem c10_reingest_state_amended (st : PState) (g : Graph) (fp : String)
    (fc : Option String) (e1 e2 : ExtractResult) (cf : Bool) (n1 n2 : Int) :
    (reingestFile st g fp fc e1 e2 cf n1 n2).1.testing_mode = st.testing_mode ∧
    (reingestFile st g fp fc e1 e2 cf n1 n2).1.track_sources = st.track_sources ∧
    (reingestFile st g fp fc e1 e2 cf n1 n2).1.current_source_file = some fp := by
  unfold reingestFile
  cases cf with
  | true => simp [ingestTextFile_state]
  | false => simp [ingestTextFile_state]

/-- Counterexample for C10 as stated: a call leaves `current_source_file`
changed — before the call it is `None`, after it is the ingested path. -/
theorem c10_counterexample :
    (reingestFile ⟨false, true, none⟩ ⟨[], []⟩ "notes.md" (some "")
        emptyExtract emptyExtract false 0 0).1
      = ⟨false, true, some "notes.md"⟩ ∧
    (⟨false, true, none⟩ : PState).current_source_file = none ∧
    ¬ (some "notes.md" = (none : Option String)) := by
  refine ⟨rfl, rfl, ?_⟩
  decide

/-- Claim C6 (amended): `_add_tracking_fields` does append the
`_source_file` assignment when source tracking is enabled and a (nonempty)
current source file is set, but `create_entities_in_neo4j` builds its
queries inline without calling it — the function does not read the tracking
state at all — so no upserted node is ever stamped with `_source_file`: a
store without that property stays without it, in either mode. -/
theorem c6_source_stamping_amended (f q : String) (m : Bool) (g : Graph)
    (e : Entities) (testing : Bool) (t : Int) (hf : ¬ f = "")
    (hg : ∀ n ∈ g.nodes, lookupKey n.props "_source_file" = none) :
    (addTrackingFields ⟨m, true, some f⟩ q
      = (q ++ srcFragment) ++ (if m then testFragment else "")) ∧
    (∀ n ∈ (createEntitiesInNeo4j g e testing t).1.nodes,
      lookupKey n.props "_source_file" = none) := by
  constructor
  · unfold addTrackingFields pyTruthy
    rw [show (( ⟨m, true, some f⟩ : PState).track_sources
        && (match some f with
            | none => false
            | some s => decide (¬ s = "")) ) = true from by simp [hf]]
    cases m with
    | true => simp
    | false => simp
  · intro n hn
    exact runUps_key_invariant _ g "_source_file" (buildUps_no_source e testing t) hg n hn

/-- Witness for C6 (amended) at concrete inputs. -/
theorem c6_source_stamping_amended_witness :
    (¬ ("ch1.md" : String) = "") ∧
    (∀ n ∈ (⟨[], []⟩ : Graph).nodes, lookupKey n.props "_source_file" = none) ∧
    ((addTrackingFields ⟨false, true, some "ch1.md"⟩ "MERGE"
      = ("MERGE" ++ srcFragment) ++ (if false then testFragment else "")) ∧
    (∀ n ∈ (createEntitiesInNeo4j ⟨[], []⟩
        [("characters", [[("name", Val.str "Alice")]])] false 0).1.nodes,
      lookupKey n.props "_source_file" = none)) :=
  ⟨by decide, fun n hn => absurd hn (List.not_mem_nil n),
   c6_source_stamping_amended "ch1.md" "MERGE" false ⟨[], []⟩
     [("characters", [[("name", Val.str "Alice")]])] false 0 (by decide)
     (fun n hn => absurd hn (List.not_mem_nil n))⟩

/-- Counterexample for C6 as stated: a file ingestion with source tracking
enabled (the default) and the current source file set upserts the Alice node
without any `_source_file` property. -/
theorem c6_counterexample :
    (ingestTextFile ⟨false, true, none⟩ ⟨[], []⟩ "ch1.md" (some "")
        ⟨[("characters", [[("name", Val.str "Alice")]])], []⟩ 0).1
      = ⟨false, true, some "ch1.md"⟩ ∧
    (ingestTextFile ⟨false, true, none⟩ ⟨[], []⟩ "ch1.md" (some "")
        ⟨[("characters", [[("name", Val.str "Alice")]])], []⟩ 0).2.1
      = ⟨[⟨1, "Character",
          [("description", Val.str ""), ("name", Val.str "Alice"),
           ("role", Val.str ""), ("traits", Val.strList [])]⟩], []⟩ ∧
    lookupKey [("description", Val.str ""), ("name", Val.str "Alice"),
        ("role", Val.str ""), ("traits", Val.strList [])] "_source_file" = none := by
  refine ⟨by rfl, by rfl, by rfl⟩

/- ## Content organisation (`organize_content.py`) -/

/-- Python regex class `\s` over the source's ASCII content: the whitespace
class used by `strip()`, `\s*` and `\s+`. -/
def isPySpace (c : Char) : Bool :=
  decide (c = ' ') || decide (c = '\t') || decide (c = '\n') || decide (c = '\r') ||
  decide (c = Char.ofNat 11) || decide (c = Char.ofNat 12)

/-- Split a whitespace run at its last newline: returns the part after the
last `\n`, or `none` when the run has no newline. -/
def lastNlSplit : List Char → Option (List Char)
  | [] => none
  | c :: t =>
    match lastNlSplit t with
    | some r => some r
    | none => if c = '\n' then some t else none

/-- Backtracked `\s*\n`: greedy whitespace, then give characters back until a
`\n` is consumed last; the match consumes through the last newline of the
whitespace run.  Returns the remainder, `none` when the run has no newline. -/
def matchWsNl (cs : List Char) : Option (List Char) :=
  match lastNlSplit (spanWhile isPySpace cs).1 with
  | some tw => some (tw ++ (spanWhile isPySpace cs).2)
  | none => none

/-- Closing-delimiter search for the frontmatter regex: the non-greedy group
`(.*?)` grows one character at a time until `\n---\s*\n` matches. -/
def fmCloseGo : Nat → List Char → Option (List Char)
  | 0, _ => none
  | _, [] => none
  | fuel + 1, c :: rest =>
    match (match c :: rest with
           | '\n' :: '-' :: '-' :: '-' :: r2 => matchWsNl r2
           | _ => none : Option (List Char)) with
    | some _ => some []
    | none =>
      match fmCloseGo fuel rest with
      | some g => some (c :: g)
      | none => none

/-- The frontmatter regex `re.search(r'^---\s*\n(.*?)\n---\s*\n', content,
re.DOTALL)`: without MULTILINE the `^` anchors at the start of the file only;
returns the captured group. -/
def fmBlock (cs : List Char) : Option (List Char) :=
  match cs with
  | '-' :: '-' :: '-' :: rest =>
    match matchWsNl rest with
    | some r2 => fmCloseGo (r2.length + 1) r2
    | none => none
  | _ => none

/-- Try `type:\s*(\w+)` at the current position: literal `type:`, greedy
whitespace (no whitespace character is a word character, so backtracking the
`\s*` can never help), then a nonempty word-character run. -/
def matchTypeAt (cs : List Char) : Option (List Char) :=
  match cs with
  | 't' :: 'y' :: 'p' :: 'e' :: ':' :: rest =>
    match spanWhile isWordChar (spanWhile isPySpace rest).2 with
    | ([], _) => none
    | (w, _) => some w
  | _ => none

/-- `re.search(r'type:\s*(\w+)', frontmatter)`: leftmost match. -/
def scanType : List Char → Option (List Char)
  | [] => none
  | c :: rest =>
    match matchTypeAt (c :: rest) with
    | some w => some w
    | none => scanType rest

/-- Boolean list-prefix test on character lists. -/
def isPrefB : List Char → List Char → Bool
  | [], _ => true
  | _ :: _, [] => false
  | a :: as, b :: bs => decide (a = b) && isPrefB as bs

/-- Python `needle in hay` on strings: substring containment. -/
def isSubB (needle : List Char) : List Char → Bool
  | [] => isPrefB needle []
  | c :: t => isPrefB needle (c :: t) || isSubB needle t

/-- The keyword cascade of `detect_content_type` after the frontmatter check,
in source order over the lowercased content, defaulting to story. -/
def detectKeywords (cl : List Char) : String :=
  if isSubB "character:".data cl || isSubB "personality:".data cl ||
     isSubB "backstory:".data cl || isSubB "appearance:".data cl then "character"
  else if isSubB "location:".data cl || isSubB "setting:".data cl ||
     isSubB "geography:".data cl || isSubB "architecture:".data cl then "location"
  else if isSubB "scene:".data cl || isSubB "dialogue:".data cl ||
     isSubB "action:".data cl || isSubB "pov:".data cl then "scene"
  else if isSubB "chapter".data cl || isSubB "story:".data cl ||
     isSubB "plot:".data cl || isSubB "narrative:".data cl then "story"
  else if isSubB "magic system".data cl || isSubB "world:".data cl ||
     isSubB "culture:".data cl || isSubB "history:".data cl ||
     isSubB "religion:".data cl || isSubB "technology:".data cl then "worldbuilding"
  else if isSubB "theme:".data cl || isSubB "motif:".data cl ||
     isSubB "symbolism:".data cl || isSubB "meaning:".data cl then "theme"
  else if isSubB "research:".data cl || isSubB "reference:".data cl ||
     isSubB "inspiration:".data cl || isSubB "notes:".data cl then "research"
  else "story"

/-- `detect_content_type`: a frontmatter `type:` field wins (lowercased);
otherwise the keyword cascade runs on `content.lower()`. -/
def detectContentType (content : List Char) : String :=
  match fmBlock content with
  | some fm =>
    match scanType fm with
    | some w => String.mk (w.map pyLowerChar)
    | none => detectKeywords (content.map pyLowerChar)
  | none => detectKeywords (content.map pyLowerChar)

/-- The `type_dirs` mapping of `ContentOrganizer` (target directory bucket per
content type), with the `.get` default of the stories bucket. -/
def typeDirs (t : String) : String :=
  if t = "character" then "characters"
  else if t = "location" then "locations"
  else if t = "scene" then "scenes"
  else if t = "story" then "stories"
  else if t = "worldbuilding" then "worldbuilding"
  else if t = "theme" then "themes"
  else if t = "research" then "research"
  else "stories"

/-- Index of the last dot in a filename, if any (Python `str.rfind('.')`). -/
def rfindDot : List Char → Option Nat
  | [] => none
  | c :: t =>
    match rfindDot t with
    | some i => some (i + 1)
    | none => if c = '.' then some 0 else none

/-- pathlib stem/suffix split: the suffix starts at the last dot when that dot
is neither the first nor the last character, otherwise the suffix is empty. -/
def pySplitExt (name : String) : String × String :=
  match rfindDot name.data with
  | some i =>
    if 0 < i ∧ i + 1 < name.data.length then
      (String.mk (name.data.take i), String.mk (name.data.drop i))
    else (name, "")
  | none => (name, "")

/-- String length as the length of the underlying character list. -/
def slen (s : String) : Nat := s.data.length

/-- One-past bound on the collision-loop iterations: the number of existing
filenames at least as long as the candidate, plus one. -/
def collFuel (fs : List String) (t : String) : Nat :=
  (fs.filter (fun f => decide (slen t ≤ slen f))).length + 1

/-- The `while target_path.exists()` loop of `move_and_organize`: note that
the stem is recomputed from the CURRENT candidate on every iteration, so the
numeric suffixes accumulate rather than replace each other. -/
def resolveLoop : Nat → List String → String → Nat → String
  | 0, _, t, _ => t
  | fuel + 1, fs, t, counter =>
    if t ∈ fs then
      resolveLoop fuel fs
        ((pySplitExt t).1 ++ "_" ++ Nat.repr counter ++ (pySplitExt t).2) (counter + 1)
    else t

/-- Collision resolution of `move_and_organize` over the list of filenames
already present in the target directory. -/
def resolveCollision (fs : List String) (t : String) : String :=
  resolveLoop (collFuel fs t) fs t 1

theorem pySplitExt_len (t : String) :
    slen (pySplitExt t).1 + slen (pySplitExt t).2 = slen t := by
  unfold pySplitExt
  cases hr : rfindDot t.data with
  | none => simp [slen]
  | some i =>
    dsimp only
    by_cases h : 0 < i ∧ i + 1 < t.data.length
    · rw [if_pos h]
      show (t.data.take i).length + (t.data.drop i).length = t.data.length
      rw [List.length_take, List.length_drop]
      omega
    · rw [if_neg h]
      simp [slen]

theorem slen_append (a b : String) : slen (a ++ b) = slen a + slen b := by
  unfold slen
  rw [String.data_append, List.length_append]

theorem nextName_len (t : String) (counter : Nat) :
    slen t < slen ((pySplitExt t).1 ++ "_" ++ Nat.repr counter ++ (pySplitExt t).2) := by
  have h := pySplitExt_len t
  rw [slen_append, slen_append, slen_append]
  have h1 : slen ("_" : String) = 1 := rfl
  omega

theorem filter_len_le (p q : String → Bool) (l : List String)
    (himp : ∀ x, p x = true → q x = true) :
    (l.filter p).length ≤ (l.filter q).length := by
  induction l with
  | nil => exact Nat.le_refl 0
  | cons a t ih =>
    rw [List.filter_cons, List.filter_cons]
    by_cases hp : p a = true
    · rw [if_pos hp, if_pos (himp a hp)]
      exact Nat.succ_le_succ ih
    · rw [if_neg hp]
      by_cases hq : q a = true
      · rw [if_pos hq]
        exact Nat.le_succ_of_le ih
      · rw [if_neg hq]
        exact ih

theorem filter_len_lt (p q : String → Bool) (l : List String)
    (himp : ∀ x, p x = true → q x = true) (x : String) (hx : x ∈ l)
    (hqx : q x = true) (hpx : p x = false) :
    (l.filter p).length < (l.filter q).length := by
  induction l with
  | nil => exact absurd hx (List.not_mem_nil x)
  | cons a t ih =>
    rw [List.filter_cons, List.filter_cons]
    rcases List.mem_cons.mp hx with h | h
    · subst h
      rw [if_neg (by rw [hpx]; exact Bool.false_ne_true), if_pos hqx]
      exact Nat.lt_succ_of_le (filter_len_le p q t himp)
    · have ihh := ih h
      by_cases hp : p a = true
      · rw [if_pos hp, if_pos (himp a hp)]
        exact Nat.succ_lt_succ ihh
      · rw [if_neg hp]
        by_cases hq : q a = true
        · rw [if_pos hq]
          exact Nat.lt_succ_of_lt ihh
        · rw [if_neg hq]
          exact ihh

theorem resolveLoop_not_mem (fuel : Nat) (fs : List String) (t : String) (counter : Nat)
    (h : collFuel fs t ≤ fuel) : resolveLoop fuel fs t counter ∉ fs := by
  induction fuel generalizing t counter with
  | zero => exact absurd h (by simp [collFuel])
  | succ fuel ih =>
    rw [resolveLoop]
    by_cases hm : t ∈ fs
    · rw [if_pos hm]
      apply ih
      have hlt : slen t <
          slen ((pySplitExt t).1 ++ "_" ++ Nat.repr counter ++ (pySplitExt t).2) :=
        nextName_len t counter
      have hdec := filter_len_lt
        (fun f => decide (slen ((pySplitExt t).1 ++ "_" ++ Nat.repr counter ++
          (pySplitExt t).2) ≤ slen f))
        (fun f => decide (slen t ≤ slen f)) fs
        (fun x hx => by
          simp only [decide_eq_true_eq] at hx ⊢
          omega)
        t hm (by simp) (by simp; omega)
      unfold collFuel at h ⊢
      omega
    · rw [if_neg hm]
      exact hm

theorem resolveCollision_not_mem (fs : List String) (t : String) :
    resolveCollision fs t ∉ fs :=
  resolveLoop_not_mem (collFuel fs t) fs t 1 (Nat.le_refl _)

theorem isPrefB_trans (a b c : List Char) (h1 : isPrefB a b = true)
    (h2 : isPrefB b c = true) : isPrefB a c = true := by
  induction a generalizing b c with
  | nil => rfl
  | cons x xs ih =>
    cases b with
    | nil => cases h1
    | cons y ys =>
      cases c with
      | nil => cases h2
      | cons z zs =>
        simp only [isPrefB, Bool.and_eq_true, decide_eq_true_eq] at h1 h2 ⊢
        exact ⟨h1.1.trans h2.1, ih ys zs h1.2 h2.2⟩

theorem isSubB_of_prefix (n1 n2 hay : List Char) (hpre : isPrefB n1 n2 = true)
    (h : isSubB n2 hay = true) : isSubB n1 hay = true := by
  induction hay with
  | nil => exact isPrefB_trans n1 n2 [] hpre h
  | cons c t ih =>
    simp only [isSubB, Bool.or_eq_true] at h ⊢
    rcases h with h | h
    · exact Or.inl (isPrefB_trans n1 n2 (c :: t) hpre h)
    · exact Or.inr (ih h)

/-- C8 (amended): a file whose body contains the line
"Personality: brave and reckless" (so its lowercased content contains the
substring) and whose frontmatter yields no `type:` field is classified as a
character document, bucketed under the characters directory; the collision
loop never returns an existing filename, a first collision on foo.md yields
foo_1.md, and a further collision yields foo_1_2.md (the stem is recomputed
from the current candidate each iteration, so the suffixes accumulate). -/
theorem c8_organize_amended (content : List Char)
    (hfm : (match fmBlock content with
            | some fm => scanType fm
            | none => none : Option (List Char)) = none)
    (hper : isSubB "personality: brave and reckless".data
      (content.map pyLowerChar) = true) :
    detectContentType content = "character" ∧
    typeDirs (detectContentType content) = "characters" ∧
    (∀ fs t, resolveCollision fs t ∉ fs) ∧
    resolveCollision ["foo.md"] "foo.md" = "foo_1.md" ∧
    resolveCollision ["foo.md", "foo_1.md"] "foo.md" = "foo_1_2.md" := by
  have hsub : isSubB "personality:".data (content.map pyLowerChar) = true :=
    isSubB_of_prefix _ _ _ (by decide) hper
  have hchar : detectContentType content = "character" := by
    unfold detectContentType
    cases hfb : fmBlock content with
    | none =>
      unfold detectKeywords
      rw [if_pos (by rw [hsub]; simp)]
    | some fm =>
      rw [hfb] at hfm
      dsimp only at hfm ⊢
      rw [hfm]
      unfold detectKeywords
      rw [if_pos (by rw [hsub]; simp)]
  refine ⟨hchar, ?_, fun fs t => resolveCollision_not_mem fs t, rfl, rfl⟩
  rw [hchar]
  rfl

/-- Witness for C8 (amended) at a concrete character sheet with no
frontmatter. -/
theorem c8_organize_amended_witness :
    ((match fmBlock "Name: Soren\nPersonality: brave and reckless\n".data with
      | some fm => scanType fm
      | none => none : Option (List Char)) = none) ∧
    isSubB "personality: brave and reckless".data
      ("Name: Soren\nPersonality: brave and reckless\n".data.map pyLowerChar) = true ∧
    detectContentType "Name: Soren\nPersonality: brave and reckless\n".data
      = "character" ∧
    typeDirs "character" = "characters" := by
  refine ⟨rfl, by decide, ?_, rfl⟩
  exact (c8_organize_amended "Name: Soren\nPersonality: brave and reckless\n".data
    rfl (by decide)).1

/-- Counterexample for C8 as stated: after foo.md and foo_1.md both exist, the
next candidate is foo_1_2.md, not the claimed foo_2.md, because the loop
recomputes the stem from the current candidate. -/
theorem c8_counterexample :
    resolveCollision ["foo.md", "foo_1.md"] "foo.md" = "foo_1_2.md" ∧
    ¬ resolveCollision ["foo.md", "foo_1.md"] "foo.md" = "foo_2.md" := by
  exact ⟨rfl, by decide⟩

/- ## Title extraction (`organize_content.py`) -/

/-- The regex `.` without DOTALL: any character but a newline. -/
def nonNl (c : Char) : Bool := ! decide (c = '\n')

/-- Backtracking for the heading regex tail `\s+(.+)$`: give characters back
from the greedy whitespace run until the nonempty non-newline group matches;
at least one whitespace character must stay consumed. -/
def headingBt : List Char → List Char → Option (List Char)
  | [], rem =>
    match spanWhile nonNl rem with
    | ([], _) => none
    | (r, _) => some r
  | c :: wRev2, rem =>
    match spanWhile nonNl rem with
    | ([], _) => if wRev2.isEmpty then none else headingBt wRev2 (c :: rem)
    | (r, _) => some r

/-- Try the MULTILINE heading regex `^#\s+(.+)$` at a line start. -/
def matchHeadingAt (cs : List Char) : Option (List Char) :=
  match cs with
  | '#' :: rest =>
    match spanWhile isPySpace rest with
    | ([], _) => none
    | (w, rest2) => headingBt w.reverse rest2
  | _ => none

/-- Leftmost match of `re.search(r'^#\s+(.+)$', content, re.MULTILINE)`: try
the start of the content and every position after a newline. -/
def findHeading : Bool → List Char → Option (List Char)
  | _, [] => none
  | atStart, c :: rest =>
    match (if atStart then matchHeadingAt (c :: rest) else none) with
    | some g => some g
    | none => findHeading (decide (c = '\n')) rest

/-- Backtracking for the frontmatter title tail `\s*(.+)`: like the heading
tail but the whitespace run may be given back entirely. -/
def titleBt : List Char → List Char → Option (List Char)
  | [], rem =>
    match spanWhile nonNl rem with
    | ([], _) => none
    | (r, _) => some r
  | c :: wRev2, rem =>
    match spanWhile nonNl rem with
    | ([], _) => titleBt wRev2 (c :: rem)
    | (r, _) => some r

/-- Try `title:\s*(.+)` at the current position. -/
def matchTitleAt (cs : List Char) : Option (List Char) :=
  match cs with
  | 't' :: 'i' :: 't' :: 'l' :: 'e' :: ':' :: rest =>
    titleBt (spanWhile isPySpace rest).1.reverse (spanWhile isPySpace rest).2
  | _ => none

/-- `re.search(r'title:\s*(.+)', frontmatter)`: leftmost match. -/
def scanTitle : List Char → Option (List Char)
  | [] => none
  | c :: rest =>
    match matchTitleAt (c :: rest) with
    | some g => some g
    | none => scanTitle rest

/-- Python two-sided strip over a character class. -/
def pyStripChars (p : Char → Bool) (cs : List Char) : List Char :=
  ((cs.dropWhile p).reverse.dropWhile p).reverse

/-- The quote characters removed by `.strip('"\'')`. -/
def isQuoteChar (c : Char) : Bool := decide (c = '"') || decide (c = '\'')

/-- The character class kept by the sanitizer `re.sub(r'[^\w\s-]', '',
title)`: word characters, whitespace, and the hyphen survive. -/
def keepTitleChar (c : Char) : Bool := isWordChar c || isPySpace c || decide (c = '-')

/-- `re.sub(r'\s+', '_', s)`: each maximal whitespace run becomes a single
underscore (the flag records whether the previous character was whitespace). -/
def collapseWsGo : List Char → Bool → List Char
  | [], _ => []
  | c :: rest, prevWs =>
    if isPySpace c then
      (if prevWs then collapseWsGo rest true else '_' :: collapseWsGo rest true)
    else c :: collapseWsGo rest false

/-- The title sanitizer of `extract_title_from_content`: drop characters
outside `[\w\s-]`, strip, collapse whitespace runs to underscores,
lowercase. -/
def cleanTitle (title : List Char) : String :=
  String.mk ((collapseWsGo (pyStripChars isPySpace (title.filter keepTitleChar)) false).map
    pyLowerChar)

/-- `extract_title_from_content`: the first markdown heading wins, else the
frontmatter `title:` field (quote-stripped), else nothing; the captured group
is stripped before sanitizing. -/
def extractTitle (content : List Char) : Option String :=
  match findHeading true content with
  | some g => some (cleanTitle (pyStripChars isPySpace g))
  | none =>
    match fmBlock content with
    | some fm =>
      match scanTitle fm with
      | some g => some (cleanTitle (pyStripChars isQuoteChar (pyStripChars isPySpace g)))
      | none => none
    | none => none

/-- `generate_filename`: the extracted title with a `.md` extension when
truthy, else the original filename. -/
def generateFilename (origName : String) (content : List Char) : String :=
  match extractTitle content with
  | some t => if t = "" then origName else t ++ ".md"
  | none => origName

theorem mem_dropWhile (p : Char → Bool) (l : List Char) (c : Char)
    (hc : c ∈ l.dropWhile p) : c ∈ l := by
  induction l with
  | nil => simp at hc
  | cons a t ih =>
    rw [List.dropWhile_cons] at hc
    by_cases ha : p a = true
    · rw [if_pos ha] at hc
      exact List.mem_cons_of_mem _ (ih hc)
    · rw [if_neg ha] at hc
      exact hc

theorem mem_pyStripChars (p : Char → Bool) (l : List Char) (c : Char)
    (hc : c ∈ pyStripChars p l) : c ∈ l := by
  unfold pyStripChars at hc
  have h1 : c ∈ (l.dropWhile p).reverse.dropWhile p := List.mem_reverse.mp hc
  have h2 : c ∈ (l.dropWhile p).reverse := mem_dropWhile p _ c h1
  have h3 : c ∈ l.dropWhile p := List.mem_reverse.mp h2
  exact mem_dropWhile p l c h3

theorem mem_collapseWsGo (l : List Char) (b : Bool) (c : Char)
    (hc : c ∈ collapseWsGo l b) : c = '_' ∨ (c ∈ l ∧ isPySpace c = false) := by
  induction l generalizing b with
  | nil => exact absurd hc (List.not_mem_nil c)
  | cons a t ih =>
    unfold collapseWsGo at hc
    by_cases ha : isPySpace a = true
    · rw [if_pos ha] at hc
      cases b with
      | true =>
        rw [if_pos rfl] at hc
        rcases ih true hc with h | ⟨h1, h2⟩
        · exact Or.inl h
        · exact Or.inr ⟨List.mem_cons_of_mem _ h1, h2⟩
      | false =>
        rw [if_neg Bool.false_ne_true] at hc
        rcases List.mem_cons.mp hc with h | h
        · exact Or.inl h
        · rcases ih true h with h2 | ⟨h2, h3⟩
          · exact Or.inl h2
          · exact Or.inr ⟨List.mem_cons_of_mem _ h2, h3⟩
    · rw [if_neg ha] at hc
      rcases List.mem_cons.mp hc with h | h
      · subst h
        exact Or.inr ⟨List.mem_cons_self _ _, Bool.eq_false_iff.mpr ha⟩
      · rcases ih false h with h2 | ⟨h2, h3⟩
        · exact Or.inl h2
        · exact Or.inr ⟨List.mem_cons_of_mem _ h2, h3⟩

theorem lowerShift_word (n : Nat) (h1 : 65 ≤ n) (h2 : n ≤ 90) :
    isWordChar (Char.ofNat (n + 32)) = true := by
  interval_cases n <;> decide

theorem isWordChar_pyLowerChar (c : Char) (h : isWordChar c = true) :
    isWordChar (pyLowerChar c) = true := by
  unfold pyLowerChar
  by_cases hc : 'A' ≤ c ∧ c ≤ 'Z'
  · rw [if_pos hc]
    exact lowerShift_word c.toNat hc.1 hc.2
  · rw [if_neg hc]
    exact h

theorem cleanTitle_chars (x : List Char) (c : Char) (hc : c ∈ (cleanTitle x).data) :
    isWordChar c = true ∨ c = '-' := by
  unfold cleanTitle at hc
  rcases List.mem_map.mp hc with ⟨d, hd, rfl⟩
  rcases mem_collapseWsGo _ _ _ hd with h1 | ⟨h1, h2⟩
  · subst h1
    exact Or.inl (by decide)
  · have h3 := mem_pyStripChars _ _ _ h1
    have h4 := List.mem_filter.mp h3
    have h5 : isWordChar d = true ∨ isPySpace d = true ∨ d = '-' := by
      have := h4.2
      unfold keepTitleChar at this
      simpa [Bool.or_eq_true, decide_eq_true_eq, or_assoc] using this
    rcases h5 with h5 | h5 | h5
    · exact Or.inl (isWordChar_pyLowerChar d h5)
    · rw [h5] at h2
      cases h2
    · subst h5
      exact Or.inr (by decide)

/-- C9 (amended): the target filename comes from the first markdown heading
or, failing that, the frontmatter `title:` field, sanitized so that every
character is a word character (alphanumeric or underscore) OR A HYPHEN — the
sanitizer keeps hyphens; when no title is derived (or it sanitizes to the
empty string, which is falsy), the original filename is returned unchanged,
and a truthy title gets the .md extension. -/
theorem c9_title_amended (orig : String) (content : List Char) :
    (∀ t, extractTitle content = some t →
      ∀ c ∈ t.data, isWordChar c = true ∨ c = '-') ∧
    (∀ g, findHeading true content = some g →
      extractTitle content = some (cleanTitle (pyStripChars isPySpace g))) ∧
    (findHeading true content = none → ∀ fm g, fmBlock content = some fm →
      scanTitle fm = some g →
      extractTitle content
        = some (cleanTitle (pyStripChars isQuoteChar (pyStripChars isPySpace g)))) ∧
    (extractTitle content = none → generateFilename orig content = orig) ∧
    (∀ t, extractTitle content = some t → ¬ t = "" →
      generateFilename orig content = t ++ ".md") ∧
    (extractTitle content = some "" → generateFilename orig content = orig) := by
  refine ⟨?_, ?_, ?_, ?_, ?_, ?_⟩
  · intro t ht c hcmem
    unfold extractTitle at ht
    cases hh : findHeading true content with
    | some g =>
      rw [hh] at ht
      dsimp only at ht
      have ht2 := Option.some.inj ht
      subst ht2
      exact cleanTitle_chars _ c hcmem
    | none =>
      rw [hh] at ht
      dsimp only at ht
      cases hfb : fmBlock content with
      | none => rw [hfb] at ht; cases ht
      | some fm =>
        rw [hfb] at ht
        dsimp only at ht
        cases hsc : scanTitle fm with
        | none => rw [hsc] at ht; cases ht
        | some g =>
          rw [hsc] at ht
          dsimp only at ht
          have ht2 := Option.some.inj ht
          subst ht2
          exact cleanTitle_chars _ c hcmem
  · intro g hg
    unfold extractTitle
    rw [hg]
  · intro hh fm g hfb hsc
    unfold extractTitle
    rw [hh]
    dsimp only
    rw [hfb]
    dsimp only
    rw [hsc]
  · intro h
    unfold generateFilename
    rw [h]
  · intro t ht hne
    unfold generateFilename
    rw [ht]
    dsimp only
    rw [if_neg hne]
  · intro h
    unfold generateFilename
    rw [h]
    dsimp only
    rw [if_pos rfl]

/-- Witness for C9 (amended) at a concrete heading-titled file. -/
theorem c9_title_amended_witness :
    extractTitle "# My Title\nBody text\n".data = some "my_title" ∧
    (∀ c ∈ ("my_title" : String).data, isWordChar c = true ∨ c = '-') ∧
    ¬ ("my_title" : String) = "" ∧
    generateFilename "draft.md" "# My Title\nBody text\n".data = "my_title.md" := by
  refine ⟨rfl, ?_, by decide, ?_⟩
  · exact (c9_title_amended "draft.md" "# My Title\nBody text\n".data).1 "my_title" rfl
  · exact (c9_title_amended "draft.md" "# My Title\nBody text\n".data).2.2.2.2.1
      "my_title" rfl (by decide)

/-- Counterexample for C9 as stated: the heading `# My-Title` sanitizes to
my-title, whose hyphen is neither alphanumeric nor an underscore, so the
claimed alphanumeric-and-underscore-only restriction fails. -/
theorem c9_counterexample :
    extractTitle "# My-Title\nBody text\n".data = some "my-title" ∧
    generateFilename "draft.md" "# My-Title\nBody text\n".data = "my-title.md" ∧
    '-' ∈ ("my-title" : String).data ∧ isWordChar '-' = false := by
  exact ⟨rfl, rfl, by decide, by decide⟩

end WritingAssistant
